import Mathlib

/-!
Verification of the pisim partition-refinement bisimulation checker
(Kanellakis–Smolka style) against its specification.

The Go source (pisim.go) is shallowly embedded as executable Lean
definitions:

* state identifiers and transition labels are natural numbers (the Go code
  uses `int` state ids produced by pifra, which are non-negative, and only
  requires labels to be equality-comparable index keys);
* Go maps are association lists: `mapSet` updates in place when the key is
  present and appends otherwise, `mapGet` returns the Go zero value `0` on a
  missing key, exactly like a Go map read;
* Go map-backed sets (`States`, the destination set in `destinations`) are
  duplicate-free lists built with insert-if-absent; where the Go code
  iterates a map in unspecified order and then sorts, the embedding sorts
  the same multiset, so the observable result agrees;
* the process-global `blockIDCounter` is threaded explicitly: every
  function that calls `newBlock` takes and returns the counter.  A fresh
  process starts the counter at 0, so `newPartition` uses block id 0 and
  the refinement loop starts with counter 1;
* in Go, `Partition.states` maps a state to a `Block` value, but every
  observation of that map (in `destinations` and `refine`) only uses the
  block's `id` field, so the embedding stores the id directly.
-/

/-- A transition of a labelled transition system: `(source, label, destination)`. -/
structure Transition where
  source : Nat
  label : Nat
  destination : Nat
deriving DecidableEq

/-- An LTS as the core consumes it: the list of state ids (the keys of the
Go `States` map; the configuration payloads are irrelevant to the
algorithm) and the list of transitions. -/
structure Lts where
  states : List Nat
  transitions : List Transition
deriving DecidableEq

/-- A block: a unique integer id plus a set of states (duplicate-free list). -/
structure Block where
  id : Nat
  states : List Nat
deriving DecidableEq

/-- A partition: the current blocks, the state-to-block-id index, and the
label-to-transitions index. -/
structure Partition where
  blocks : List Block
  states : List (Nat × Nat)
  actions : List (Nat × List Transition)
deriving DecidableEq

/-- Go map read with zero value `0` on a missing key. -/
def mapGet (m : List (Nat × Nat)) (k : Nat) : Nat :=
  match m with
  | [] => 0
  | p :: rest => if p.1 = k then p.2 else mapGet rest k

/-- Go map write: update the entry in place when present, append otherwise. -/
def mapSet (m : List (Nat × Nat)) (k v : Nat) : List (Nat × Nat) :=
  if m.any (fun p => p.1 == k) then
    m.map (fun p => if p.1 = k then (k, v) else p)
  else m ++ [(k, v)]

/-- Set insertion for the map-backed `States` sets. -/
def statesInsert (ss : List Nat) (s : Nat) : List Nat :=
  if s ∈ ss then ss else ss ++ [s]

/-- Read of the label index; a missing label yields the empty transition
list, like a Go map read returning a nil slice. -/
def lookupTrans (acts : List (Nat × List Transition)) (a : Nat) : List Transition :=
  match acts with
  | [] => []
  | p :: rest => if p.1 = a then p.2 else lookupTrans rest a

/-- One step of `collectActions`: append the transition to its label's
entry, creating the entry if absent. -/
def actionsAdd (acts : List (Nat × List Transition)) (tr : Transition) :
    List (Nat × List Transition) :=
  if acts.any (fun p => p.1 == tr.label) then
    acts.map (fun p => if p.1 = tr.label then (p.1, p.2 ++ [tr]) else p)
  else acts ++ [(tr.label, [tr])]

/-- `collectActions`: fold all transitions of an LTS into the label index. -/
def collectActions (acts : List (Nat × List Transition)) (lts : Lts) :
    List (Nat × List Transition) :=
  lts.transitions.foldl actionsAdd acts

/-- The block-membership half of `collectStates`: insert every state of the
LTS into the block's state set. -/
def collectBlockStates (bs : List Nat) (lts : Lts) : List Nat :=
  lts.states.foldl statesInsert bs

/-- The index half of `collectStates`: point every state of the LTS at the
given block id. -/
def collectIdx (ix : List (Nat × Nat)) (bid : Nat) (lts : Lts) : List (Nat × Nat) :=
  lts.states.foldl (fun m s => mapSet m s bid) ix

/-- `newPartition`: one block (id 0, allocated by the first `newBlock` call
of a fresh process) holding all states of both LTSs, the state index
pointing every state at it, and the label index over both transition
lists.  The Go `collectStates` fills the block set and the index in one
loop; the two folds here traverse the same list and touch disjoint data. -/
def newPartition (l r : Lts) : Partition :=
  { blocks := [⟨0, collectBlockStates (collectBlockStates [] l) r⟩],
    states := collectIdx (collectIdx [] 0 l) 0 r,
    actions := collectActions (collectActions [] l) r }

/-- The merged state set (each state once), for stating the invariants. -/
def mergedStates (l r : Lts) : List Nat :=
  (l.states ++ r.states).dedup

/-- The block ids of the destinations of the transitions with the given
source and label, one entry per matching transition (before the Go code
collapses them into a set). -/
def destBlockIds (source action : Nat) (part : Partition) : List Nat :=
  ((lookupTrans part.actions action).filter
      (fun t => t.label == action && t.source == source)).map
    (fun t => mapGet part.states t.destination)

/-- `destinations`: the Go code collects the block ids into a set `dests`,
then does `ids := make([]int, len(dests))` followed by `append`s — so the
result is the SORTED multiset of `len(dests)` zeros plus the distinct
block ids.  The embedding reproduces that padding faithfully. -/
def destinations (source action : Nat) (part : Partition) : List Nat :=
  let uniq := (destBlockIds source action part).dedup
  List.insertionSort (· ≤ ·) (List.replicate uniq.length 0 ++ uniq)

/-- The members of a block whose signature under `a` equals the signature
of the representative `rep`. -/
def eqFilterR (part : Partition) (b : Block) (a rep : Nat) : List Nat :=
  b.states.filter (fun t => destinations t a part == destinations rep a part)

/-- The members of a block whose signature under `a` differs from the
signature of the representative `rep`. -/
def neFilterR (part : Partition) (b : Block) (a rep : Nat) : List Nat :=
  b.states.filter (fun t => !(destinations t a part == destinations rep a part))

/-- The representative `splitKS` picks: the first state its map iteration
yields, and the zero value 0 when the block is empty (`var s int`). -/
def splitRep (block : Block) : Nat := block.states.headD 0

/-- The `B1` member set computed by `splitKS`. -/
def splitEq (block : Block) (a : Nat) (part : Partition) : List Nat :=
  eqFilterR part block a (splitRep block)

/-- The `B2` member set computed by `splitKS`. -/
def splitNe (block : Block) (a : Nat) (part : Partition) : List Nat :=
  neFilterR part block a (splitRep block)

/-- `newBlock`: allocate a block with the next id from the counter. -/
def newBlock (ctr : Nat) : Block × Nat :=
  (⟨ctr, []⟩, ctr + 1)

/-- `splitKS`.  The Go code allocates `b1` (id `ctr`) and `b2` (id
`ctr + 1`) unconditionally, advancing the global counter by two, fills
them by comparing each member's signature with the representative's, and
returns `(block, b2)` — the original block and the empty fresh `b2` — when
no member differs, else `(b1, b2)`. -/
def splitKS (block : Block) (a : Nat) (part : Partition) (ctr : Nat) :
    Block × Block × Nat :=
  if splitNe block a part = [] then
    (block, ⟨ctr + 1, []⟩, ctr + 2)
  else
    (⟨ctr, splitEq block a part⟩, ⟨ctr + 1, splitNe block a part⟩, ctr + 2)

/-- `Blocks.remove`: delete the entry keyed by the block's id. -/
def blocksRemove (bs : List Block) (b : Block) : List Block :=
  bs.filter (fun x => x.id ≠ b.id)

/-- `Blocks.add`: set the entry keyed by the block's id. -/
def blocksAdd (bs : List Block) (b : Block) : List Block :=
  bs.filter (fun x => x.id ≠ b.id) ++ [b]

/-- `refine`: remove `b`, add `b1` and `b2`, and repoint every state of `b`
at whichever of the two now contains it. -/
def refine (part : Partition) (b b1 b2 : Block) : Partition :=
  { part with
    blocks := blocksAdd (blocksAdd (blocksRemove part.blocks b) b1) b2,
    states := b.states.foldl
      (fun m s => mapSet m s (if s ∈ b1.states then b1.id else b2.id))
      part.states }

/-- The inner loop of `partKS` over the labels of one block: try each
label in turn; a result whose first block keeps the block's own id is the
no-op signal (`continue`), anything else is returned for installation. -/
def scanBlock (block : Block) (acts : List (Nat × List Transition))
    (part : Partition) (ctr : Nat) : Option (Block × Block) × Nat :=
  match acts with
  | [] => (none, ctr)
  | pa :: rest =>
    let r := splitKS block pa.1 part ctr
    if r.1.id = block.id then scanBlock block rest part r.2.2
    else (some (r.1, r.2.1), r.2.2)

/-- The outer scan of `partKS` over all blocks: the first applicable split,
together with the block it replaces. -/
def scanBlocks (bs : List Block) (acts : List (Nat × List Transition))
    (part : Partition) (ctr : Nat) : Option (Block × Block × Block) × Nat :=
  match bs with
  | [] => (none, ctr)
  | b :: rest =>
    match scanBlock b acts part ctr with
    | (some p, c) => (some (b, p.1, p.2), c)
    | (none, c) => scanBlocks rest acts part c

/-- The `for changed` loop of `partKS`: scan, install the first applicable
split, and restart; stop when a full scan applies nothing.  The fuel
argument only bounds the number of scans; `partKS` passes enough fuel for
the loop to reach its fixpoint (proved below). -/
def partKSAux : Nat → Partition → Nat → Partition × Nat
  | 0, part, ctr => (part, ctr)
  | fuel + 1, part, ctr =>
    match scanBlocks part.blocks part.actions part ctr with
    | (none, c) => (part, c)
    | (some (b, b1, b2), c) => partKSAux fuel (refine part b b1 b2) c

/-- `partKS`: build the initial partition and refine it to a fixpoint. -/
def partKS (l r : Lts) : Partition :=
  (partKSAux ((mergedStates l r).length + 1) (newPartition l r) 1).1

/-- `isLeft`: origin is recoverable from parity. -/
def isLeft (state : Nat) : Bool :=
  state % 2 == 0

/-- `States.bisimilar`: the block's state set contains at least one
left-origin and at least one right-origin state. -/
def States.bisimilar (ss : List Nat) : Bool :=
  ss.any (fun s => isLeft s) && ss.any (fun s => !isLeft s)

/-- The loop of `Partition.bisimilar`: bail out with the nil sentinel on
the first pure block, otherwise assign each block's states the next class
label. -/
def bisimAux : List Block → Nat → List (Nat × Nat) → Option (List (Nat × Nat))
  | [], _, acc => some acc
  | b :: rest, label, acc =>
    if States.bisimilar b.states then
      bisimAux rest (label + 1) (b.states.foldl (fun m s => mapSet m s label) acc)
    else none

/-- `Partition.bisimilar`: the Go method returns a `Bisimulation` map or
`nil`; the embedding returns `some` relation or `none`. -/
def Partition.bisimilar (p : Partition) : Option (List (Nat × Nat)) :=
  bisimAux p.blocks 0 []

/-- The id transformation of `uniquifyLTS`: double, plus one on the right. -/
def uniquify (right : Bool) (id : Nat) : Nat :=
  id * 2 + (if right then 1 else 0)

/-- `uniquifyLTS`: rebuild the state set and every transition's endpoints
under the id transformation. -/
def uniquifyLTS (lts : Lts) (right : Bool) : Lts :=
  { states := lts.states.map (uniquify right),
    transitions := lts.transitions.map
      (fun t => { t with
        source := uniquify right t.source,
        destination := uniquify right t.destination }) }

/-- Two states lie in the same group of the partition: the state index
assigns them the same block id. -/
def Grouping (P : Partition) (s t : Nat) : Prop :=
  mapGet P.states s = mapGet P.states t

/-- The well-formedness invariant of a partition over the merged state set
`merged`: at least one block; duplicate-free member sets; distinct block
ids; pairwise-disjoint blocks; the blocks cover exactly `merged`; the
state index agrees with membership; and all blocks are non-empty except
possibly a single initial block. -/
structure Inv0 (merged : List Nat) (part : Partition) : Prop where
  blocksNe : part.blocks ≠ []
  nodupStates : ∀ b ∈ part.blocks, b.states.Nodup
  idsNodup : (part.blocks.map Block.id).Nodup
  disjointBlocks : ∀ b ∈ part.blocks, ∀ b' ∈ part.blocks, b.id ≠ b'.id →
    ∀ s ∈ b.states, s ∉ b'.states
  cover : ∀ s, (∃ b ∈ part.blocks, s ∈ b.states) ↔ s ∈ merged
  idx : ∀ b ∈ part.blocks, ∀ s ∈ b.states, mapGet part.states s = b.id
  nonempty : part.blocks.length ≤ 1 ∨ ∀ b ∈ part.blocks, b.states ≠ []

/-- An applicable split: block `b` of the partition, label `a` of the
label index, representative `rep ∈ b`, fresh ids `i` and `i + 1`, with at
least one member whose signature differs from the representative's. -/
structure IsSplit (part : Partition) (b : Block) (a rep i : Nat) : Prop where
  hb : b ∈ part.blocks
  ha : ∃ ts, (a, ts) ∈ part.actions
  hrep : rep ∈ b.states
  hfresh : ∀ b' ∈ part.blocks, b'.id ≠ i ∧ b'.id ≠ i + 1
  hne : neFilterR part b a rep ≠ []

/-- The partition after installing a split (what `refine` does with the
two blocks `splitKS` builds). -/
def splitResult (part : Partition) (b : Block) (a rep i : Nat) : Partition :=
  refine part b ⟨i, eqFilterR part b a rep⟩ ⟨i + 1, neFilterR part b a rep⟩

/-- One installed split, with the scanned block, label, representative and
fresh ids chosen arbitrarily: this is the step relation of the refinement
loop under every scan order. -/
def RStep (part part' : Partition) : Prop :=
  ∃ b a rep i, IsSplit part b a rep i ∧ part' = splitResult part b a rep i

/-- The partitions a run of the refinement loop on `l` and `r` can pass
through, whatever the scan order. -/
def Reach (l r : Lts) (part : Partition) : Prop :=
  Relation.ReflTransGen RStep (newPartition l r) part

/-- No split applies anywhere when the representative is the one `splitKS`
picks: the loop's exit condition. -/
def Stable (part : Partition) : Prop :=
  ∀ b ∈ part.blocks, ∀ pa ∈ part.actions, splitNe b pa.1 part = []

/-- No split applies for any choice of representative. -/
def RStable (part : Partition) : Prop :=
  ∀ b ∈ part.blocks, ∀ pa ∈ part.actions, ∀ rep ∈ b.states, neFilterR part b pa.1 rep = []

/-- Well-formed input pair: every transition's destination is a state of
its own LTS. -/
def Wf (l r : Lts) : Prop :=
  (∀ t ∈ l.transitions, t.destination ∈ l.states) ∧
    (∀ t ∈ r.transitions, t.destination ∈ r.states)

/-- Every transition stored in the label index ends inside `merged`. -/
def ActWf (merged : List Nat) (part : Partition) : Prop :=
  ∀ pa ∈ part.actions, ∀ t ∈ pa.2, t.destination ∈ merged

/-- `P` groups at least as coarsely as `Q` on the merged state set. -/
def CoarserThan (merged : List Nat) (P Q : Partition) : Prop :=
  ∀ s ∈ merged, ∀ t ∈ merged, Grouping Q s t → Grouping P s t

/-- All block ids are below the allocation counter: freshness of the ids
the counter will hand out next. -/
def IdsLt (part : Partition) (ctr : Nat) : Prop :=
  ∀ b ∈ part.blocks, b.id < ctr

/-- Scenario A, left system, already uniquified: states {0, 2} with the
transition 0 →a→ 2 (label a encoded as 0). -/
def ltsA : Lts := ⟨[0, 2], [⟨0, 0, 2⟩]⟩

/-- Scenario A, right system, already uniquified: states {1, 3} with the
transition 1 →a→ 3. -/
def ltsB : Lts := ⟨[1, 3], [⟨1, 0, 3⟩]⟩

/-- The empty LTS. -/
def ltsE : Lts := ⟨[], []⟩

/-- A one-block partition with a single transition 0 →a→ 2, the concrete
input on which `destinations` pads its output with zeros. -/
def examplePart : Partition := ⟨[⟨0, [0, 2]⟩], [(0, 0), (2, 0)], [(0, [⟨0, 0, 2⟩])]⟩

/-! ## Association-map and set lemmas -/

theorem mapGet_map_update_self (k v : Nat) :
    ∀ m : List (Nat × Nat), m.any (fun p => p.1 == k) = true →
      mapGet (m.map (fun p => if p.1 = k then (k, v) else p)) k = v := by
  intro m
  induction m with
  | nil => simp
  | cons p rest ih =>
    intro h
    by_cases hp : p.1 = k
    · simp [mapGet, hp]
    · have h' : rest.any (fun p => p.1 == k) = true := by
        simpa [List.any_cons, hp] using h
      simpa [mapGet, hp] using ih h'

theorem mapGet_append_single_self (k v : Nat) :
    ∀ m : List (Nat × Nat), m.any (fun p => p.1 == k) = false →
      mapGet (m ++ [(k, v)]) k = v := by
  intro m
  induction m with
  | nil => simp [mapGet]
  | cons p rest ih =>
    intro h
    simp only [List.any_cons, Bool.or_eq_false_iff, beq_eq_false_iff_ne] at h
    simpa [mapGet, h.1] using ih h.2

theorem mapGet_mapSet_self (m : List (Nat × Nat)) (k v : Nat) :
    mapGet (mapSet m k v) k = v := by
  unfold mapSet
  by_cases h : m.any (fun p => p.1 == k) = true
  · simpa [h] using mapGet_map_update_self k v m h
  · simp only [Bool.not_eq_true] at h
    simpa [h] using mapGet_append_single_self k v m h

theorem mapGet_map_update_other (k v k' : Nat) (h : k' ≠ k) :
    ∀ m : List (Nat × Nat),
      mapGet (m.map (fun p => if p.1 = k then (k, v) else p)) k' = mapGet m k' := by
  intro m
  have h1 : ¬ (k = k') := fun e => h e.symm
  induction m with
  | nil => simp
  | cons p rest ih =>
    by_cases hp : p.1 = k
    · have h2 : ¬ (p.1 = k') := by rw [hp]; exact h1
      simp [mapGet, hp, h1, h2, ih]
    · simp [mapGet, hp, ih]

theorem mapGet_append_single_other (k v k' : Nat) (h : k' ≠ k) :
    ∀ m : List (Nat × Nat), mapGet (m ++ [(k, v)]) k' = mapGet m k' := by
  intro m
  have h1 : ¬ (k = k') := fun e => h e.symm
  induction m with
  | nil => simp [mapGet, h1]
  | cons p rest ih => simp [mapGet, ih]

theorem mapGet_mapSet_other (m : List (Nat × Nat)) (k v k' : Nat) (h : k' ≠ k) :
    mapGet (mapSet m k v) k' = mapGet m k' := by
  unfold mapSet
  split
  · exact mapGet_map_update_other k v k' h m
  · exact mapGet_append_single_other k v k' h m

theorem mapGet_foldl_set (f : Nat → Nat) (s : Nat) :
    ∀ (l : List Nat) (m : List (Nat × Nat)),
      mapGet (l.foldl (fun m x => mapSet m x (f x)) m) s =
        if s ∈ l then f s else mapGet m s := by
  intro l
  induction l with
  | nil => simp
  | cons x rest ih =>
    intro m
    by_cases hs : s ∈ rest
    · simp [List.foldl_cons, ih, hs]
    · by_cases hx : s = x
      · subst hx
        simp [List.foldl_cons, ih, hs, mapGet_mapSet_self]
      · simp [List.foldl_cons, ih, hs, hx, mapGet_mapSet_other _ _ _ _ hx]

theorem mem_statesInsert (ss : List Nat) (s x : Nat) :
    x ∈ statesInsert ss s ↔ x ∈ ss ∨ x = s := by
  unfold statesInsert
  by_cases h : s ∈ ss
  · simp only [if_pos h]
    exact ⟨Or.inl, fun hx => hx.elim id (fun e => e ▸ h)⟩
  · simp [if_neg h]

theorem nodup_statesInsert (ss : List Nat) (s : Nat) (h : ss.Nodup) :
    (statesInsert ss s).Nodup := by
  unfold statesInsert
  by_cases hs : s ∈ ss
  · simpa [hs]
  · rw [if_neg hs]
    refine List.Nodup.append h (by simp) ?_
    intro x hx hx'
    rw [List.mem_singleton.mp hx'] at hx
    exact hs hx

theorem mem_foldl_statesInsert (x : Nat) :
    ∀ (l : List Nat) (bs : List Nat),
      x ∈ l.foldl statesInsert bs ↔ x ∈ bs ∨ x ∈ l := by
  intro l
  induction l with
  | nil => simp
  | cons s rest ih =>
    intro bs
    rw [List.foldl_cons, ih, mem_statesInsert]
    constructor
    · rintro ((hx | rfl) | hx)
      · exact Or.inl hx
      · exact Or.inr (by simp)
      · exact Or.inr (List.mem_cons_of_mem _ hx)
    · rintro (hx | hx)
      · exact Or.inl (Or.inl hx)
      · rcases List.mem_cons.mp hx with rfl | hx
        · exact Or.inl (Or.inr rfl)
        · exact Or.inr hx

theorem nodup_foldl_statesInsert :
    ∀ (l : List Nat) (bs : List Nat), bs.Nodup → (l.foldl statesInsert bs).Nodup := by
  intro l
  induction l with
  | nil => intro bs h; simpa
  | cons s rest ih =>
    intro bs h
    exact ih (statesInsert bs s) (nodup_statesInsert bs s h)

theorem headD_mem {l : List Nat} (h : l ≠ []) (d : Nat) : l.headD d ∈ l := by
  cases l with
  | nil => exact absurd rfl h
  | cons x xs => simp

/-! ## Filter and signature lemmas -/

theorem mem_eqFilterR (p : Partition) (b : Block) (a rep x : Nat) :
    x ∈ eqFilterR p b a rep ↔
      x ∈ b.states ∧ destinations x a p = destinations rep a p := by
  simp [eqFilterR, List.mem_filter]

theorem mem_neFilterR (p : Partition) (b : Block) (a rep x : Nat) :
    x ∈ neFilterR p b a rep ↔
      x ∈ b.states ∧ destinations x a p ≠ destinations rep a p := by
  simp [neFilterR, List.mem_filter]

theorem neFilterR_eq_nil_iff (p : Partition) (b : Block) (a rep : Nat) :
    neFilterR p b a rep = [] ↔
      ∀ t ∈ b.states, destinations t a p = destinations rep a p := by
  simp [neFilterR, List.filter_eq_nil_iff]

theorem stable_pairwise (p : Partition) (b : Block) (a : Nat)
    (h : splitNe b a p = []) :
    ∀ s ∈ b.states, ∀ t ∈ b.states, destinations s a p = destinations t a p := by
  intro s hs t ht
  have h' := (neFilterR_eq_nil_iff p b a (splitRep b)).mp h
  exact (h' s hs).trans (h' t ht).symm

theorem stable_rstable (p : Partition) (h : Stable p) : RStable p := by
  intro b hb pa hpa rep hrep
  rw [neFilterR_eq_nil_iff]
  intro t ht
  exact stable_pairwise p b pa.1 (h b hb pa hpa) t ht rep hrep

/-! ## Block-list lemmas -/

theorem mem_blocksRemove (bs : List Block) (b x : Block) :
    x ∈ blocksRemove bs b ↔ x ∈ bs ∧ x.id ≠ b.id := by
  simp [blocksRemove, List.mem_filter]

theorem mem_blocksAdd (bs : List Block) (b x : Block) :
    x ∈ blocksAdd bs b ↔ (x ∈ bs ∧ x.id ≠ b.id) ∨ x = b := by
  simp [blocksAdd, List.mem_filter, List.mem_append]

theorem blocksRemove_eq_self (bs : List Block) (b : Block)
    (h : ∀ x ∈ bs, x.id ≠ b.id) : blocksRemove bs b = bs := by
  unfold blocksRemove
  rw [List.filter_eq_self]
  intro x hx
  simpa using h x hx

theorem blocksAdd_eq_append (bs : List Block) (b : Block)
    (h : ∀ x ∈ bs, x.id ≠ b.id) : blocksAdd bs b = bs ++ [b] := by
  unfold blocksAdd
  rw [List.filter_eq_self.mpr]
  intro x hx
  simpa using h x hx

theorem length_blocksRemove (b : Block) :
    ∀ bs : List Block, (bs.map Block.id).Nodup → b ∈ bs →
      bs.length = (blocksRemove bs b).length + 1 := by
  intro bs
  induction bs with
  | nil => intro _ h; cases h
  | cons x rest ih =>
    intro hnd hmem
    rw [List.map_cons, List.nodup_cons] at hnd
    by_cases hid : x.id = b.id
    · have hrest : blocksRemove rest b = rest := by
        apply blocksRemove_eq_self
        intro y hy he
        exact hnd.1 (by rw [← he] at hid; rw [hid]; exact List.mem_map_of_mem Block.id hy)
      have hcons : blocksRemove (x :: rest) b = blocksRemove rest b := by
        unfold blocksRemove
        rw [List.filter_cons]
        simp [hid]
      rw [hcons, hrest]
      simp
    · have hb : b ∈ rest := by
        rcases List.mem_cons.mp hmem with rfl | hb
        · exact absurd rfl hid
        · exact hb
      have hcons : blocksRemove (x :: rest) b = x :: blocksRemove rest b := by
        unfold blocksRemove
        rw [List.filter_cons]
        simp [hid]
      have := ih hnd.2 hb
      rw [hcons]
      simp only [List.length_cons]
      omega

/-! ## Initial partition -/

theorem mem_collectBlockStates (bs : List Nat) (lts : Lts) (x : Nat) :
    x ∈ collectBlockStates bs lts ↔ x ∈ bs ∨ x ∈ lts.states :=
  mem_foldl_statesInsert x lts.states bs

theorem nodup_collectBlockStates (bs : List Nat) (lts : Lts) (h : bs.Nodup) :
    (collectBlockStates bs lts).Nodup :=
  nodup_foldl_statesInsert lts.states bs h

theorem mapGet_collectIdx (ix : List (Nat × Nat)) (bid : Nat) (lts : Lts) (s : Nat) :
    mapGet (collectIdx ix bid lts) s = if s ∈ lts.states then bid else mapGet ix s :=
  mapGet_foldl_set (fun _ => bid) s lts.states ix

theorem cover_newPartition (l r : Lts) (s : Nat) :
    s ∈ collectBlockStates (collectBlockStates [] l) r ↔ s ∈ mergedStates l r := by
  rw [mem_collectBlockStates, mem_collectBlockStates]
  simp [mergedStates]

theorem inv0_newPartition (l r : Lts) : Inv0 (mergedStates l r) (newPartition l r) := by
  constructor
  · simp [newPartition]
  · intro b hb
    simp only [newPartition, List.mem_singleton] at hb
    subst hb
    exact nodup_collectBlockStates _ _ (nodup_collectBlockStates _ _ List.nodup_nil)
  · simp [newPartition]
  · intro b hb b' hb' hne
    simp only [newPartition, List.mem_singleton] at hb hb'
    subst hb; subst hb'
    exact absurd rfl hne
  · intro s
    simp only [newPartition, List.mem_singleton]
    constructor
    · rintro ⟨b, rfl, hs⟩
      exact (cover_newPartition l r s).mp hs
    · intro hs
      exact ⟨_, rfl, (cover_newPartition l r s).mpr hs⟩
  · intro b hb s _
    simp only [newPartition, List.mem_singleton] at hb
    subst hb
    show mapGet (collectIdx (collectIdx [] 0 l) 0 r) s = 0
    rw [mapGet_collectIdx, mapGet_collectIdx]
    split <;> [rfl; split <;> rfl]
  · left
    simp [newPartition]

/-! ## Characterizing destinations by the underlying id set -/

theorem length_destinations (s a : Nat) (p : Partition) :
    (destinations s a p).length = 2 * ((destBlockIds s a p).dedup).length := by
  have h := (List.perm_insertionSort (· ≤ ·)
    (List.replicate ((destBlockIds s a p).dedup).length 0 ++
      (destBlockIds s a p).dedup)).length_eq
  simp only [List.length_append, List.length_replicate] at h
  show (List.insertionSort (· ≤ ·)
      (List.replicate ((destBlockIds s a p).dedup).length 0 ++
        (destBlockIds s a p).dedup)).length =
    2 * ((destBlockIds s a p).dedup).length
  omega

theorem count_destinations (s a x : Nat) (p : Partition) :
    (destinations s a p).count x =
      (if x = 0 then ((destBlockIds s a p).dedup).length else 0) +
        (if x ∈ (destBlockIds s a p).dedup then 1 else 0) := by
  unfold destinations
  rw [List.Perm.count_eq (List.perm_insertionSort _ _), List.count_append,
    List.count_replicate]
  have hcount : ((destBlockIds s a p).dedup).count x =
      if x ∈ (destBlockIds s a p).dedup then 1 else 0 := by
    by_cases hx : x ∈ (destBlockIds s a p).dedup
    · simp [hx, List.count_eq_one_of_mem (List.nodup_dedup _) hx]
    · simp [hx, List.count_eq_zero.mpr hx]
  rw [hcount]
  by_cases hx0 : x = 0
  · subst hx0; simp
  · have h0 : ((0 : Nat) == x) = false := by
      simpa using Ne.symm hx0
    simp [hx0, h0]

theorem destinations_eq_of_mem_iff (s t a : Nat) (p : Partition)
    (h : ∀ x, x ∈ destBlockIds s a p ↔ x ∈ destBlockIds t a p) :
    destinations s a p = destinations t a p := by
  have hperm : List.Perm ((destBlockIds s a p).dedup) ((destBlockIds t a p).dedup) := by
    rw [List.perm_iff_count]
    intro x
    by_cases hx : x ∈ (destBlockIds s a p).dedup
    · have hx' : x ∈ (destBlockIds t a p).dedup := by
        rw [List.mem_dedup] at hx ⊢
        exact (h x).mp hx
      rw [List.count_eq_one_of_mem (List.nodup_dedup _) hx,
        List.count_eq_one_of_mem (List.nodup_dedup _) hx']
    · have hx' : x ∉ (destBlockIds t a p).dedup := by
        rw [List.mem_dedup] at hx ⊢
        exact fun hmem => hx ((h x).mpr hmem)
      rw [List.count_eq_zero.mpr hx, List.count_eq_zero.mpr hx']
  have hp : List.Perm
      (List.replicate ((destBlockIds s a p).dedup).length 0 ++
        (destBlockIds s a p).dedup)
      (List.replicate ((destBlockIds t a p).dedup).length 0 ++
        (destBlockIds t a p).dedup) := by
    rw [hperm.length_eq]
    exact List.Perm.append (List.Perm.refl _) hperm
  unfold destinations
  exact List.eq_of_perm_of_sorted
    (((List.perm_insertionSort _ _).trans hp).trans
      (List.perm_insertionSort _ _).symm)
    (List.sorted_insertionSort _ _) (List.sorted_insertionSort _ _)

theorem mem_iff_of_destinations_eq (s t a : Nat) (p : Partition)
    (h : destinations s a p = destinations t a p) (x : Nat) :
    x ∈ destBlockIds s a p ↔ x ∈ destBlockIds t a p := by
  have hlen : ((destBlockIds s a p).dedup).length =
      ((destBlockIds t a p).dedup).length := by
    have hl := congrArg List.length h
    rw [length_destinations, length_destinations] at hl
    omega
  have hcnt := congrArg (List.count x) h
  rw [count_destinations, count_destinations, hlen] at hcnt
  constructor
  · intro h1
    have h1' : x ∈ (destBlockIds s a p).dedup := List.mem_dedup.mpr h1
    by_contra h2
    have h2' : x ∉ (destBlockIds t a p).dedup := fun hm => h2 (List.mem_dedup.mp hm)
    rw [if_pos h1', if_neg h2'] at hcnt
    by_cases hx0 : x = 0 <;> simp [hx0] at hcnt
  · intro h2
    have h2' : x ∈ (destBlockIds t a p).dedup := List.mem_dedup.mpr h2
    by_contra h1
    have h1' : x ∉ (destBlockIds s a p).dedup := fun hm => h1 (List.mem_dedup.mp hm)
    rw [if_pos h2', if_neg h1'] at hcnt
    by_cases hx0 : x = 0 <;> simp [hx0] at hcnt

/-! ## Installing a split -/

theorem blocks_splitResult (p : Partition) (b : Block) (a rep i : Nat)
    (hfresh : ∀ x ∈ p.blocks, x.id ≠ i ∧ x.id ≠ i + 1) :
    (splitResult p b a rep i).blocks =
      blocksRemove p.blocks b ++
        [⟨i, eqFilterR p b a rep⟩, ⟨i + 1, neFilterR p b a rep⟩] := by
  show blocksAdd (blocksAdd (blocksRemove p.blocks b) ⟨i, eqFilterR p b a rep⟩)
      ⟨i + 1, neFilterR p b a rep⟩ = _
  have h1 : blocksAdd (blocksRemove p.blocks b) ⟨i, eqFilterR p b a rep⟩ =
      blocksRemove p.blocks b ++ [⟨i, eqFilterR p b a rep⟩] := by
    apply blocksAdd_eq_append
    intro x hx
    exact (hfresh x ((mem_blocksRemove _ _ _).mp hx).1).1
  rw [h1]
  have h2 : blocksAdd
        (blocksRemove p.blocks b ++ [⟨i, eqFilterR p b a rep⟩])
        ⟨i + 1, neFilterR p b a rep⟩ =
      (blocksRemove p.blocks b ++ [⟨i, eqFilterR p b a rep⟩]) ++
        [⟨i + 1, neFilterR p b a rep⟩] := by
    apply blocksAdd_eq_append
    intro x hx
    rcases List.mem_append.mp hx with hx | hx
    · exact (hfresh x ((mem_blocksRemove _ _ _).mp hx).1).2
    · rw [List.mem_singleton.mp hx]
      show i ≠ i + 1
      omega
  rw [h2, List.append_assoc]
  rfl

theorem mem_blocks_splitResult (p : Partition) (b : Block) (a rep i : Nat)
    (hfresh : ∀ x ∈ p.blocks, x.id ≠ i ∧ x.id ≠ i + 1) (x : Block) :
    x ∈ (splitResult p b a rep i).blocks ↔
      (x ∈ p.blocks ∧ x.id ≠ b.id) ∨
        x = ⟨i, eqFilterR p b a rep⟩ ∨ x = ⟨i + 1, neFilterR p b a rep⟩ := by
  rw [blocks_splitResult p b a rep i hfresh, List.mem_append, mem_blocksRemove]
  simp

theorem mapGet_splitResult (p : Partition) (b : Block) (a rep i : Nat) (s : Nat) :
    mapGet (splitResult p b a rep i).states s =
      if s ∈ b.states then
        (if s ∈ eqFilterR p b a rep then i else i + 1)
      else mapGet p.states s :=
  mapGet_foldl_set (fun x => if x ∈ eqFilterR p b a rep then i else i + 1)
    s b.states p.states

theorem actions_splitResult (p : Partition) (b : Block) (a rep i : Nat) :
    (splitResult p b a rep i).actions = p.actions :=
  rfl

theorem eqFilterR_not_mem_neFilterR (p : Partition) (b : Block) (a rep x : Nat)
    (h : x ∈ eqFilterR p b a rep) : x ∉ neFilterR p b a rep :=
  fun h' => ((mem_neFilterR p b a rep x).mp h').2 ((mem_eqFilterR p b a rep x).mp h).2

theorem mem_states_iff_filters (p : Partition) (b : Block) (a rep x : Nat) :
    x ∈ b.states ↔ x ∈ eqFilterR p b a rep ∨ x ∈ neFilterR p b a rep := by
  rw [mem_eqFilterR, mem_neFilterR]
  by_cases h : destinations x a p = destinations rep a p <;> tauto

theorem eq_of_mem_of_id_eq {bs : List Block} (hnd : (bs.map Block.id).Nodup)
    {x y : Block} (hx : x ∈ bs) (hy : y ∈ bs) (h : x.id = y.id) : x = y :=
  List.inj_on_of_nodup_map hnd hx hy h

theorem inv0_splitResult (merged : List Nat) (p : Partition) (b : Block)
    (a rep i : Nat) (hinv : Inv0 merged p) (hs : IsSplit p b a rep i) :
    Inv0 merged (splitResult p b a rep i) := by
  obtain ⟨hb, ha, hrep, hfresh, hne⟩ := hs
  have hmem := mem_blocks_splitResult p b a rep i hfresh
  have hsubEq : ∀ x, x ∈ eqFilterR p b a rep → x ∈ b.states :=
    fun x hx => ((mem_eqFilterR p b a rep x).mp hx).1
  have hsubNe : ∀ x, x ∈ neFilterR p b a rep → x ∈ b.states :=
    fun x hx => ((mem_neFilterR p b a rep x).mp hx).1
  have hrep1 : rep ∈ eqFilterR p b a rep :=
    (mem_eqFilterR p b a rep rep).mpr ⟨hrep, rfl⟩
  constructor
  · rw [blocks_splitResult p b a rep i hfresh]
    simp
  · intro x hx
    rcases (hmem x).mp hx with ⟨hxp, _⟩ | rfl | rfl
    · exact hinv.nodupStates x hxp
    · exact (hinv.nodupStates b hb).filter _
    · exact (hinv.nodupStates b hb).filter _
  · rw [blocks_splitResult p b a rep i hfresh, List.map_append]
    rw [List.nodup_append]
    refine ⟨?_, by simp, ?_⟩
    · exact List.Nodup.sublist ((List.filter_sublist _).map Block.id) hinv.idsNodup
    · intro z hz hz'
      rcases List.mem_map.mp hz with ⟨x, hx, rfl⟩
      have hxp : x ∈ p.blocks := ((mem_blocksRemove _ _ _).mp hx).1
      have := hfresh x hxp
      simp only [List.map_cons, List.map_nil, List.mem_cons, List.mem_singleton] at hz'
      rcases hz' with h | h | h
      · exact this.1 h
      · exact this.2 h
      · cases h
  · intro x hx y hy hxy s hsx
    rcases (hmem x).mp hx with ⟨hxp, hxid⟩ | rfl | rfl <;>
      rcases (hmem y).mp hy with ⟨hyp, hyid⟩ | rfl | rfl
    · exact hinv.disjointBlocks x hxp y hyp hxy s hsx
    · intro hsy
      exact hinv.disjointBlocks x hxp b hb hxid s hsx (hsubEq s hsy)
    · intro hsy
      exact hinv.disjointBlocks x hxp b hb hxid s hsx (hsubNe s hsy)
    · intro hsy
      exact hinv.disjointBlocks b hb y hyp (fun e => hyid e.symm) s (hsubEq s hsx) hsy
    · exact absurd rfl hxy
    · exact eqFilterR_not_mem_neFilterR p b a rep s hsx
    · intro hsy
      exact hinv.disjointBlocks b hb y hyp (fun e => hyid e.symm) s (hsubNe s hsx) hsy
    · intro hsy
      exact eqFilterR_not_mem_neFilterR p b a rep s hsy hsx
    · exact absurd rfl hxy
  · intro s
    constructor
    · rintro ⟨x, hx, hsx⟩
      rcases (hmem x).mp hx with ⟨hxp, _⟩ | rfl | rfl
      · exact (hinv.cover s).mp ⟨x, hxp, hsx⟩
      · exact (hinv.cover s).mp ⟨b, hb, hsubEq s hsx⟩
      · exact (hinv.cover s).mp ⟨b, hb, hsubNe s hsx⟩
    · intro hsm
      obtain ⟨x, hxp, hsx⟩ := (hinv.cover s).mpr hsm
      by_cases hxid : x.id = b.id
      · have hxb : x = b := eq_of_mem_of_id_eq hinv.idsNodup hxp hb hxid
        subst hxb
        rcases (mem_states_iff_filters p x a rep s).mp hsx with h1 | h2
        · exact ⟨_, (hmem _).mpr (Or.inr (Or.inl rfl)), h1⟩
        · exact ⟨_, (hmem _).mpr (Or.inr (Or.inr rfl)), h2⟩
      · exact ⟨x, (hmem x).mpr (Or.inl ⟨hxp, hxid⟩), hsx⟩
  · intro x hx s hsx
    rw [mapGet_splitResult]
    rcases (hmem x).mp hx with ⟨hxp, hxid⟩ | rfl | rfl
    · have hnb : s ∉ b.states := hinv.disjointBlocks x hxp b hb hxid s hsx
      rw [if_neg hnb]
      exact hinv.idx x hxp s hsx
    · rw [if_pos (hsubEq s hsx), if_pos hsx]
    · rw [if_pos (hsubNe s hsx),
        if_neg (fun h => eqFilterR_not_mem_neFilterR p b a rep s h hsx)]
  · right
    intro x hx
    rcases (hmem x).mp hx with ⟨hxp, hxid⟩ | rfl | rfl
    · rcases hinv.nonempty with hlen | hall
      · have hpos : 0 < p.blocks.length := List.length_pos.mpr (fun e => by
          rw [e] at hb; cases hb)
        have h1 : p.blocks.length = 1 := le_antisymm hlen hpos
        obtain ⟨c, hc⟩ := List.length_eq_one.mp h1
        rw [hc] at hb hxp
        rw [List.mem_singleton.mp hb] at hxid
        rw [List.mem_singleton.mp hxp] at hxid
        exact absurd rfl hxid
      · exact hall x hxp
    · exact List.ne_nil_of_mem hrep1
    · exact hne

theorem length_blocks_splitResult (merged : List Nat) (p : Partition) (b : Block)
    (a rep i : Nat) (hinv : Inv0 merged p) (hs : IsSplit p b a rep i) :
    (splitResult p b a rep i).blocks.length = p.blocks.length + 1 := by
  rw [blocks_splitResult p b a rep i hs.hfresh, List.length_append]
  have := length_blocksRemove b p.blocks hinv.idsNodup hs.hb
  simp only [List.length_cons, List.length_nil]
  omega

theorem blocks_length_le (merged : List Nat) (p : Partition) (hinv : Inv0 merged p) :
    p.blocks.length ≤ max 1 merged.length := by
  rcases hinv.nonempty with hlen | hall
  · exact le_trans hlen (le_max_left _ _)
  · have hpw : p.blocks.Pairwise
        (fun x y => x.states.headD 0 ≠ y.states.headD 0) := by
      refine List.Pairwise.imp_of_mem ?_ ((List.pairwise_map).mp hinv.idsNodup)
      intro x y hx hy hne he
      have hxh : x.states.headD 0 ∈ x.states := headD_mem (hall x hx) 0
      have hyh : y.states.headD 0 ∈ y.states := headD_mem (hall y hy) 0
      exact hinv.disjointBlocks x hx y hy hne _ hxh (he ▸ hyh)
    have hnd : (p.blocks.map (fun x => x.states.headD 0)).Nodup :=
      (List.pairwise_map).mpr hpw
    have hsub : (p.blocks.map (fun x => x.states.headD 0)) ⊆ merged := by
      intro z hz
      rcases List.mem_map.mp hz with ⟨x, hx, rfl⟩
      exact (hinv.cover _).mp ⟨x, hx, headD_mem (hall x hx) 0⟩
    have hle := (List.Nodup.subperm hnd hsub).length_le
    rw [List.length_map] at hle
    exact le_trans hle (le_max_right _ _)

/-! ## The scan of the refinement loop -/

theorem splitKS_ctr (block : Block) (a : Nat) (part : Partition) (ctr : Nat) :
    (splitKS block a part ctr).2.2 = ctr + 2 := by
  unfold splitKS
  split <;> rfl

theorem scanBlock_cons_nil (block : Block) (pa : Nat × List Transition)
    (rest : List (Nat × List Transition)) (part : Partition) (ctr : Nat)
    (h : splitNe block pa.1 part = []) :
    scanBlock block (pa :: rest) part ctr = scanBlock block rest part (ctr + 2) := by
  simp [scanBlock, splitKS, h]

theorem scanBlock_cons_stuck (block : Block) (pa : Nat × List Transition)
    (rest : List (Nat × List Transition)) (part : Partition) (ctr : Nat)
    (h : ¬ splitNe block pa.1 part = []) (h2 : ctr = block.id) :
    scanBlock block (pa :: rest) part ctr = scanBlock block rest part (ctr + 2) := by
  simp [scanBlock, splitKS, h, h2]

theorem scanBlock_cons_ne (block : Block) (pa : Nat × List Transition)
    (rest : List (Nat × List Transition)) (part : Partition) (ctr : Nat)
    (h : ¬ splitNe block pa.1 part = []) (h2 : ¬ ctr = block.id) :
    scanBlock block (pa :: rest) part ctr =
      (some (⟨ctr, splitEq block pa.1 part⟩, ⟨ctr + 1, splitNe block pa.1 part⟩),
        ctr + 2) := by
  simp [scanBlock, splitKS, h, h2]

theorem scanBlock_ctr_le (block : Block) (part : Partition) :
    ∀ (acts : List (Nat × List Transition)) (ctr : Nat),
      ctr ≤ (scanBlock block acts part ctr).2 := by
  intro acts
  induction acts with
  | nil => intro ctr; simp [scanBlock]
  | cons pa rest ih =>
    intro ctr
    by_cases h : splitNe block pa.1 part = []
    · rw [scanBlock_cons_nil block pa rest part ctr h]
      have := ih (ctr + 2)
      omega
    · by_cases h2 : ctr = block.id
      · rw [scanBlock_cons_stuck block pa rest part ctr h h2]
        have := ih (ctr + 2)
        omega
      · rw [scanBlock_cons_ne block pa rest part ctr h h2]
        omega

theorem scanBlock_none_iff (block : Block) (part : Partition) :
    ∀ (acts : List (Nat × List Transition)) (ctr : Nat), block.id < ctr →
      ((scanBlock block acts part ctr).1 = none ↔
        ∀ pa ∈ acts, splitNe block pa.1 part = []) := by
  intro acts
  induction acts with
  | nil => intro ctr _; simp [scanBlock]
  | cons pa rest ih =>
    intro ctr hlt
    by_cases h : splitNe block pa.1 part = []
    · rw [scanBlock_cons_nil block pa rest part ctr h, ih (ctr + 2) (by omega)]
      simp [List.forall_mem_cons, h]
    · rw [scanBlock_cons_ne block pa rest part ctr h (by omega)]
      simp [List.forall_mem_cons, h]

theorem scanBlock_some (block : Block) (part : Partition) :
    ∀ (acts : List (Nat × List Transition)) (ctr : Nat), block.id < ctr →
      ∀ (x y : Block) (c : Nat), scanBlock block acts part ctr = (some (x, y), c) →
        ∃ a, (∃ ts, (a, ts) ∈ acts) ∧ ∃ j, ctr ≤ j ∧ c = j + 2 ∧
          splitNe block a part ≠ [] ∧
          x = ⟨j, splitEq block a part⟩ ∧ y = ⟨j + 1, splitNe block a part⟩ := by
  intro acts
  induction acts with
  | nil =>
    intro ctr _ x y c hsc
    simp [scanBlock] at hsc
  | cons pa rest ih =>
    intro ctr hlt x y c hsc
    by_cases h : splitNe block pa.1 part = []
    · rw [scanBlock_cons_nil block pa rest part ctr h] at hsc
      obtain ⟨a, ⟨ts, hts⟩, j, hj, hc, hne, hx, hy⟩ :=
        ih (ctr + 2) (by omega) x y c hsc
      exact ⟨a, ⟨ts, List.mem_cons_of_mem _ hts⟩, j, by omega, hc, hne, hx, hy⟩
    · rw [scanBlock_cons_ne block pa rest part ctr h (by omega)] at hsc
      simp only [Prod.mk.injEq, Option.some.injEq] at hsc
      obtain ⟨⟨hx, hy⟩, hc⟩ := hsc
      exact ⟨pa.1, ⟨pa.2, by simp⟩, ctr, le_refl _, hc.symm, h, hx.symm, hy.symm⟩

theorem scanBlocks_ctr_le (part : Partition) (acts : List (Nat × List Transition)) :
    ∀ (bs : List Block) (ctr : Nat), ctr ≤ (scanBlocks bs acts part ctr).2 := by
  intro bs
  induction bs with
  | nil => intro ctr; simp [scanBlocks]
  | cons b rest ih =>
    intro ctr
    rcases hh : scanBlock b acts part ctr with ⟨o, c⟩
    have hcle : ctr ≤ c := by
      have := scanBlock_ctr_le b part acts ctr
      rw [hh] at this
      exact this
    cases o with
    | some pq =>
      simp only [scanBlocks, hh]
      exact hcle
    | none =>
      simp only [scanBlocks, hh]
      exact le_trans hcle (ih c)

theorem scanBlocks_none_iff (part : Partition) (acts : List (Nat × List Transition)) :
    ∀ (bs : List Block) (ctr : Nat), (∀ b ∈ bs, b.id < ctr) →
      ((scanBlocks bs acts part ctr).1 = none ↔
        ∀ b ∈ bs, ∀ pa ∈ acts, splitNe b pa.1 part = []) := by
  intro bs
  induction bs with
  | nil => intro ctr _; simp [scanBlocks]
  | cons b rest ih =>
    intro ctr hlt
    rcases hh : scanBlock b acts part ctr with ⟨o, c⟩
    have hcle : ctr ≤ c := by
      have := scanBlock_ctr_le b part acts ctr
      rw [hh] at this
      exact this
    cases o with
    | some pq =>
      simp only [scanBlocks, hh]
      constructor
      · intro habs; cases habs
      · intro hall
        have hnone := (scanBlock_none_iff b part acts ctr
          (hlt b (List.mem_cons_self b rest))).mpr
          (hall b (List.mem_cons_self b rest))
        rw [hh] at hnone
        cases hnone
    | none =>
      simp only [scanBlocks, hh]
      rw [ih c (fun b' hb' =>
        lt_of_lt_of_le (hlt b' (List.mem_cons_of_mem _ hb')) hcle)]
      constructor
      · intro hrest b' hb'
        rcases List.mem_cons.mp hb' with rfl | hb'
        · have hnone : (scanBlock b' acts part ctr).1 = none := by rw [hh]
          exact (scanBlock_none_iff b' part acts ctr
            (hlt b' (List.mem_cons_self b' rest))).mp hnone
        · exact hrest b' hb'
      · intro hall b' hb'
        exact hall b' (List.mem_cons_of_mem _ hb')

theorem scanBlocks_some (part : Partition) (acts : List (Nat × List Transition)) :
    ∀ (bs : List Block) (ctr : Nat), (∀ b ∈ bs, b.id < ctr) →
      ∀ (b x y : Block) (c : Nat), scanBlocks bs acts part ctr = (some (b, x, y), c) →
        b ∈ bs ∧ ∃ a, (∃ ts, (a, ts) ∈ acts) ∧ ∃ j, ctr ≤ j ∧ c = j + 2 ∧
          splitNe b a part ≠ [] ∧
          x = ⟨j, splitEq b a part⟩ ∧ y = ⟨j + 1, splitNe b a part⟩ := by
  intro bs
  induction bs with
  | nil =>
    intro ctr _ b x y c hsc
    simp [scanBlocks] at hsc
  | cons bb rest ih =>
    intro ctr hlt b x y c hsc
    rcases hh : scanBlock bb acts part ctr with ⟨o, c0⟩
    have hcle : ctr ≤ c0 := by
      have := scanBlock_ctr_le bb part acts ctr
      rw [hh] at this
      exact this
    cases o with
    | some pq =>
      simp only [scanBlocks, hh, Prod.mk.injEq, Option.some.injEq] at hsc
      obtain ⟨⟨hbb, hx', hy'⟩, hc0⟩ := hsc
      obtain ⟨a, hts, j, hj, hc, hne, hx, hy⟩ :=
        scanBlock_some bb part acts ctr (hlt bb (List.mem_cons_self bb rest))
          pq.1 pq.2 c0 (by rw [hh])
      subst hbb
      refine ⟨List.mem_cons_self _ _, a, hts, j, hj, by omega, hne, ?_, ?_⟩
      · rw [← hx', hx]
      · rw [← hy', hy]
    | none =>
      simp only [scanBlocks, hh] at hsc
      obtain ⟨hmem, rest'⟩ := ih c0 (fun b' hb' =>
        lt_of_lt_of_le (hlt b' (List.mem_cons_of_mem _ hb')) hcle) b x y c hsc
      obtain ⟨a, hts, j, hj, hc, hne, hx, hy⟩ := rest'
      exact ⟨List.mem_cons_of_mem _ hmem, a, hts, j, by omega, hc, hne, hx, hy⟩

/-! ## The refinement loop reaches a stable fixpoint -/

theorem partKSAux_props (merged : List Nat) :
    ∀ (fuel : Nat) (part : Partition) (ctr : Nat), Inv0 merged part →
      IdsLt part ctr →
      max 1 merged.length + 1 ≤ fuel + part.blocks.length →
      Inv0 merged (partKSAux fuel part ctr).1 ∧ Stable (partKSAux fuel part ctr).1 ∧
        Relation.ReflTransGen RStep part (partKSAux fuel part ctr).1 := by
  intro fuel
  induction fuel with
  | zero =>
    intro part ctr hinv _ hbound
    have := blocks_length_le merged part hinv
    omega
  | succ fuel ih =>
    intro part ctr hinv hids hbound
    rcases hh : scanBlocks part.blocks part.actions part ctr with ⟨o, c⟩
    cases o with
    | none =>
      have hres : partKSAux (fuel + 1) part ctr = (part, c) := by
        simp [partKSAux, hh]
      rw [hres]
      refine ⟨hinv, ?_, Relation.ReflTransGen.refl⟩
      exact (scanBlocks_none_iff part part.actions part.blocks ctr hids).mp (by rw [hh])
    | some triple =>
      obtain ⟨b, x, y⟩ := triple
      have hres : partKSAux (fuel + 1) part ctr = partKSAux fuel (refine part b x y) c := by
        simp [partKSAux, hh]
      obtain ⟨hbmem, a, hts, j, hj, hc, hnenil, hx, hy⟩ :=
        scanBlocks_some part part.actions part.blocks ctr hids b x y c hh
      have hbne : b.states ≠ [] := by
        intro he
        apply hnenil
        simp [splitNe, neFilterR, he]
      have hrep : splitRep b ∈ b.states := headD_mem hbne 0
      have hsplit : IsSplit part b a (splitRep b) j :=
        ⟨hbmem, hts, hrep,
          fun b' hb' => ⟨by have := hids b' hb'; omega, by have := hids b' hb'; omega⟩,
          hnenil⟩
      have hpart' : refine part b x y = splitResult part b a (splitRep b) j := by
        rw [hx, hy]; rfl
      rw [hres, hpart']
      have hinv' := inv0_splitResult merged part b a (splitRep b) j hinv hsplit
      have hids' : IdsLt (splitResult part b a (splitRep b) j) c := by
        intro b' hb'
        rcases (mem_blocks_splitResult part b a (splitRep b) j hsplit.hfresh b').mp hb'
          with ⟨hbp, _⟩ | rfl | rfl
        · have := hids b' hbp; omega
        · show j < c; omega
        · show j + 1 < c; omega
      have hlen' := length_blocks_splitResult merged part b a (splitRep b) j hinv hsplit
      have hbound' : max 1 merged.length + 1 ≤
          fuel + (splitResult part b a (splitRep b) j).blocks.length := by
        rw [hlen']; omega
      obtain ⟨h1, h2, h3⟩ := ih (splitResult part b a (splitRep b) j) c hinv' hids' hbound'
      exact ⟨h1, h2, Relation.ReflTransGen.head ⟨b, a, splitRep b, j, hsplit, rfl⟩ h3⟩

theorem partKS_props (l r : Lts) :
    Inv0 (mergedStates l r) (partKS l r) ∧ Stable (partKS l r) ∧
      Reach l r (partKS l r) := by
  have hinv := inv0_newPartition l r
  have hids : IdsLt (newPartition l r) 1 := by
    intro b hb
    simp only [newPartition, List.mem_singleton] at hb
    subst hb
    show 0 < 1
    omega
  have hbound : max 1 (mergedStates l r).length + 1 ≤
      ((mergedStates l r).length + 1) + (newPartition l r).blocks.length := by
    have : (newPartition l r).blocks.length = 1 := by simp [newPartition]
    omega
  exact partKSAux_props (mergedStates l r) ((mergedStates l r).length + 1)
    (newPartition l r) 1 hinv hids hbound

theorem reach_inv0 (l r : Lts) (P : Partition) (h : Reach l r P) :
    Inv0 (mergedStates l r) P := by
  induction h with
  | refl => exact inv0_newPartition l r
  | tail h1 h2 ih =>
    obtain ⟨b, a, rep, i, hsplit, rfl⟩ := h2
    exact inv0_splitResult _ _ _ _ _ _ ih hsplit

theorem reach_actions (l r : Lts) (P : Partition) (h : Reach l r P) :
    P.actions = (newPartition l r).actions := by
  induction h with
  | refl => rfl
  | tail h1 h2 ih =>
    obtain ⟨b, a, rep, i, _, rfl⟩ := h2
    rw [actions_splitResult]
    exact ih

/-! ## The bisimilarity oracle -/

theorem states_bisimilar_iff (ss : List Nat) :
    States.bisimilar ss = true ↔
      (∃ s ∈ ss, s % 2 = 0) ∧ (∃ s ∈ ss, s % 2 = 1) := by
  unfold States.bisimilar isLeft
  rw [Bool.and_eq_true, List.any_eq_true, List.any_eq_true]
  constructor
  · rintro ⟨⟨s, hs, h1⟩, ⟨t, ht, h2⟩⟩
    refine ⟨⟨s, hs, by simpa using h1⟩, ⟨t, ht, ?_⟩⟩
    have : ¬ (t % 2 = 0) := by simpa using h2
    omega
  · rintro ⟨⟨s, hs, h1⟩, ⟨t, ht, h2⟩⟩
    refine ⟨⟨s, hs, by simpa using h1⟩, ⟨t, ht, ?_⟩⟩
    have : ¬ (t % 2 = 0) := by omega
    simpa using this

theorem bisimAux_none_iff :
    ∀ (bs : List Block) (lab : Nat) (acc : List (Nat × Nat)),
      bisimAux bs lab acc = none ↔ ∃ b ∈ bs, States.bisimilar b.states = false := by
  intro bs
  induction bs with
  | nil => intro lab acc; simp [bisimAux]
  | cons b rest ih =>
    intro lab acc
    by_cases hmix : States.bisimilar b.states = true
    · have hstep : bisimAux (b :: rest) lab acc =
          bisimAux rest (lab + 1) (b.states.foldl (fun m s => mapSet m s lab) acc) := by
        simp [bisimAux, hmix]
      rw [hstep, ih (lab + 1) _]
      constructor
      · rintro ⟨b', hb', h⟩
        exact ⟨b', List.mem_cons_of_mem _ hb', h⟩
      · rintro ⟨b', hb', h⟩
        rcases List.mem_cons.mp hb' with rfl | hb''
        · rw [hmix] at h; cases h
        · exact ⟨b', hb'', h⟩
    · have hmix' : States.bisimilar b.states = false := by simpa using hmix
      have hstep : bisimAux (b :: rest) lab acc = none := by
        simp [bisimAux, hmix']
      rw [hstep]
      constructor
      · intro _
        exact ⟨b, List.mem_cons_self _ _, hmix'⟩
      · intro _
        rfl

theorem partition_bisimilar_none_iff (P : Partition) :
    Partition.bisimilar P = none ↔
      ∃ b ∈ P.blocks, States.bisimilar b.states = false :=
  bisimAux_none_iff P.blocks 0 []

theorem keyIn_mapSet_self (m : List (Nat × Nat)) (k v : Nat) :
    (k, v) ∈ mapSet m k v := by
  unfold mapSet
  split
  · rename_i h
    obtain ⟨p, hp, hpk⟩ := List.any_eq_true.mp h
    refine List.mem_map.mpr ⟨p, hp, ?_⟩
    have : p.1 = k := by simpa using hpk
    simp [this]
  · exact List.mem_append_right _ (by simp)

theorem keyIn_mapSet_mono (m : List (Nat × Nat)) (k v k' v' : Nat)
    (h : (k', v') ∈ m) : ∃ v'', (k', v'') ∈ mapSet m k v := by
  unfold mapSet
  split
  · by_cases hk : k' = k
    · subst hk
      exact ⟨v, List.mem_map.mpr ⟨(k', v'), h, by simp⟩⟩
    · exact ⟨v', List.mem_map.mpr ⟨(k', v'), h, by simp [hk]⟩⟩
  · exact ⟨v', List.mem_append_left _ h⟩

theorem keyIn_foldl_mono (f : Nat → Nat) :
    ∀ (l : List Nat) (m : List (Nat × Nat)) (k v' : Nat), (k, v') ∈ m →
      ∃ v'', (k, v'') ∈ l.foldl (fun m x => mapSet m x (f x)) m := by
  intro l
  induction l with
  | nil => intro m k v' h; exact ⟨v', h⟩
  | cons x rest ih =>
    intro m k v' h
    obtain ⟨v'', h''⟩ := keyIn_mapSet_mono m x (f x) k v' h
    exact ih (mapSet m x (f x)) k v'' h''

theorem keyIn_foldl_self (f : Nat → Nat) :
    ∀ (l : List Nat) (m : List (Nat × Nat)) (k : Nat), k ∈ l →
      ∃ v, (k, v) ∈ l.foldl (fun m x => mapSet m x (f x)) m := by
  intro l
  induction l with
  | nil => intro m k h; cases h
  | cons x rest ih =>
    intro m k h
    rcases List.mem_cons.mp h with rfl | h'
    · exact keyIn_foldl_mono f rest (mapSet m k (f k)) k (f k)
        (keyIn_mapSet_self m k (f k))
    · exact ih (mapSet m x (f x)) k h'

theorem bisimAux_get :
    ∀ bs : List Block,
      List.Pairwise (fun b b' => ∀ s, s ∈ b.states → s ∉ b'.states) bs →
      ∀ (lab : Nat) (acc m : List (Nat × Nat)), bisimAux bs lab acc = some m →
        (∀ s, (∀ b ∈ bs, s ∉ b.states) → mapGet m s = mapGet acc s) ∧
        (∀ (k : Nat) (hk : k < bs.length), ∀ s ∈ (bs.get ⟨k, hk⟩).states,
          mapGet m s = lab + k) ∧
        (∀ s, ((∃ b ∈ bs, s ∈ b.states) ∨ (∃ c, (s, c) ∈ acc)) →
          ∃ c, (s, c) ∈ m) := by
  intro bs
  induction bs with
  | nil =>
    intro _ lab acc m hm
    have hacc : acc = m := by simpa [bisimAux] using hm
    subst hacc
    refine ⟨fun s _ => rfl, fun k hk => absurd hk (by simp), fun s h => ?_⟩
    rcases h with ⟨b, hb, _⟩ | h
    · cases hb
    · exact h
  | cons b rest ih =>
    intro hpw lab acc m hm
    rw [List.pairwise_cons] at hpw
    by_cases hmix : States.bisimilar b.states = true
    · have hm' : bisimAux rest (lab + 1)
          (b.states.foldl (fun m s => mapSet m s lab) acc) = some m := by
        simpa [bisimAux, hmix] using hm
      obtain ⟨g1, g2, g3⟩ := ih hpw.2 (lab + 1) _ m hm'
      refine ⟨?_, ?_, ?_⟩
      · intro s hs
        have h1 := g1 s (fun b' hb' => hs b' (List.mem_cons_of_mem _ hb'))
        rw [h1, mapGet_foldl_set (fun _ => lab) s b.states acc,
          if_neg (hs b (List.mem_cons_self _ _))]
      · intro k hk s hsk
        cases k with
        | zero =>
          have hsb : s ∈ b.states := hsk
          have hnotrest : ∀ b' ∈ rest, s ∉ b'.states :=
            fun b' hb' => hpw.1 b' hb' s hsb
          rw [g1 s hnotrest, mapGet_foldl_set (fun _ => lab) s b.states acc,
            if_pos hsb]
          omega
        | succ k' =>
          have hk' : k' < rest.length := by
            simpa using Nat.lt_of_succ_lt_succ hk
          have := g2 k' hk' s hsk
          rw [this]
          omega
      · intro s hs
        apply g3
        rcases hs with ⟨b', hb', hsb'⟩ | ⟨c, hc⟩
        · rcases List.mem_cons.mp hb' with rfl | hb''
          · exact Or.inr (keyIn_foldl_self (fun _ => lab) b'.states acc s hsb')
          · exact Or.inl ⟨b', hb'', hsb'⟩
        · exact Or.inr (keyIn_foldl_mono (fun _ => lab) b.states acc s c hc)
    · have hmix' : States.bisimilar b.states = false := by simpa using hmix
      have : bisimAux (b :: rest) lab acc = none := by simp [bisimAux, hmix']
      rw [this] at hm
      cases hm

/-! ## Scan-order independence: groupings and signatures -/

theorem mapGet_newPartition (l r : Lts) (s : Nat) :
    mapGet (newPartition l r).states s = 0 := by
  show mapGet (collectIdx (collectIdx [] 0 l) 0 r) s = 0
  rw [mapGet_collectIdx, mapGet_collectIdx]
  split <;> [rfl; split <;> rfl]

theorem lookupTrans_cases (a : Nat) :
    ∀ acts : List (Nat × List Transition),
      lookupTrans acts a = [] ∨ (a, lookupTrans acts a) ∈ acts := by
  intro acts
  induction acts with
  | nil => exact Or.inl rfl
  | cons p rest ih =>
    by_cases hp : p.1 = a
    · right
      have : lookupTrans (p :: rest) a = p.2 := by simp [lookupTrans, hp]
      rw [this, ← hp]
      exact List.mem_cons_self _ _
    · have : lookupTrans (p :: rest) a = lookupTrans rest a := by
        simp [lookupTrans, hp]
      rw [this]
      rcases ih with h | h
      · exact Or.inl h
      · exact Or.inr (List.mem_cons_of_mem _ h)

theorem mem_destBlockIds (src a : Nat) (p : Partition) (x : Nat) :
    x ∈ destBlockIds src a p ↔
      ∃ tr ∈ lookupTrans p.actions a, tr.label = a ∧ tr.source = src ∧
        mapGet p.states tr.destination = x := by
  unfold destBlockIds
  rw [List.mem_map]
  constructor
  · rintro ⟨tr, htr, rfl⟩
    rw [List.mem_filter] at htr
    have h2 := htr.2
    simp only [Bool.and_eq_true, beq_iff_eq] at h2
    exact ⟨tr, htr.1, h2.1, h2.2, rfl⟩
  · rintro ⟨tr, htr, hlab, hsrc, rfl⟩
    refine ⟨tr, ?_, rfl⟩
    rw [List.mem_filter]
    exact ⟨htr, by simp [hlab, hsrc]⟩

theorem block_unique (merged : List Nat) (P : Partition) (hinv : Inv0 merged P)
    {b b' : Block} (hb : b ∈ P.blocks) (hb' : b' ∈ P.blocks) {s : Nat}
    (hs : s ∈ b.states) (hs' : s ∈ b'.states) : b = b' := by
  by_cases hid : b.id = b'.id
  · exact eq_of_mem_of_id_eq hinv.idsNodup hb hb' hid
  · exact absurd hs' (hinv.disjointBlocks b hb b' hb' hid s hs)

theorem grouping_iff_sameBlock (merged : List Nat) (P : Partition)
    (hinv : Inv0 merged P) {s t : Nat} (hs : s ∈ merged) (ht : t ∈ merged) :
    Grouping P s t ↔ ∃ b ∈ P.blocks, s ∈ b.states ∧ t ∈ b.states := by
  obtain ⟨bS, hbS, hsS⟩ := (hinv.cover s).mpr hs
  obtain ⟨bT, hbT, hsT⟩ := (hinv.cover t).mpr ht
  constructor
  · intro hg
    have h1 : mapGet P.states s = bS.id := hinv.idx bS hbS s hsS
    have h2 : mapGet P.states t = bT.id := hinv.idx bT hbT t hsT
    have hid : bS.id = bT.id := by
      rw [← h1, ← h2]
      exact hg
    have hbb : bS = bT := eq_of_mem_of_id_eq hinv.idsNodup hbS hbT hid
    exact ⟨bS, hbS, hsS, hbb ▸ hsT⟩
  · rintro ⟨b, hb, hsb, htb⟩
    show mapGet P.states s = mapGet P.states t
    rw [hinv.idx b hb s hsb, hinv.idx b hb t htb]

/-! ## Scan-order independence: the label index is well formed -/

theorem actionsAdd_trans_sub (acts : List (Nat × List Transition)) (tr : Transition)
    (pa : Nat × List Transition) (hpa : pa ∈ actionsAdd acts tr) :
    ∀ x ∈ pa.2, (∃ pa' ∈ acts, x ∈ pa'.2) ∨ x = tr := by
  intro x hx
  unfold actionsAdd at hpa
  split at hpa
  · obtain ⟨p, hp, hupd⟩ := List.mem_map.mp hpa
    by_cases hpk : p.1 = tr.label
    · rw [if_pos hpk] at hupd
      rw [← hupd] at hx
      rcases List.mem_append.mp hx with hx' | hx'
      · exact Or.inl ⟨p, hp, hx'⟩
      · exact Or.inr (List.mem_singleton.mp hx')
    · rw [if_neg hpk] at hupd
      rw [← hupd] at hx
      exact Or.inl ⟨p, hp, hx⟩
  · rcases List.mem_append.mp hpa with hp | hp
    · exact Or.inl ⟨pa, hp, hx⟩
    · rw [List.mem_singleton.mp hp] at hx
      exact Or.inr (List.mem_singleton.mp hx)

theorem foldl_actionsAdd_trans_sub :
    ∀ (ts : List Transition) (acc : List (Nat × List Transition))
      (pa : Nat × List Transition), pa ∈ ts.foldl actionsAdd acc →
      ∀ x ∈ pa.2, (∃ pa' ∈ acc, x ∈ pa'.2) ∨ x ∈ ts := by
  intro ts
  induction ts with
  | nil =>
    intro acc pa hpa x hx
    exact Or.inl ⟨pa, hpa, hx⟩
  | cons tr rest ih =>
    intro acc pa hpa x hx
    rcases ih (actionsAdd acc tr) pa hpa x hx with ⟨pa', hpa', hx'⟩ | hx'
    · rcases actionsAdd_trans_sub acc tr pa' hpa' x hx' with h | rfl
      · exact Or.inl h
      · exact Or.inr (List.mem_cons_self _ _)
    · exact Or.inr (List.mem_cons_of_mem _ hx')

theorem actWf_newPartition (l r : Lts) (hwf : Wf l r) :
    ActWf (mergedStates l r) (newPartition l r) := by
  intro pa hpa x hx
  have h1 := foldl_actionsAdd_trans_sub r.transitions (collectActions [] l) pa hpa x hx
  rcases h1 with ⟨pa', hpa', hx'⟩ | hx'
  · have h2 := foldl_actionsAdd_trans_sub l.transitions [] pa' hpa' x hx'
    rcases h2 with ⟨pa'', hpa'', _⟩ | hx''
    · cases hpa''
    · have := hwf.1 x hx''
      simp [mergedStates, List.mem_dedup]
      exact Or.inl this
  · have := hwf.2 x hx'
    simp [mergedStates, List.mem_dedup]
    exact Or.inr this

/-! ## Scan-order independence: signatures under a coarser partition -/

theorem destinations_eq_of_coarser (merged : List Nat) (cur Q : Partition)
    (hQ : Inv0 merged Q) (hQs : RStable Q) (hacts : cur.actions = Q.actions)
    (hwf : ActWf merged cur) (hco : CoarserThan merged cur Q)
    {s t : Nat} (hs : s ∈ merged) (ht : t ∈ merged) (hg : Grouping Q s t) :
    ∀ a, destinations s a cur = destinations t a cur := by
  intro a
  obtain ⟨bq, hbq, hsq, htq⟩ := (grouping_iff_sameBlock merged Q hQ hs ht).mp hg
  rcases lookupTrans_cases a cur.actions with hlk | hlk
  · apply destinations_eq_of_mem_iff
    intro x
    have h1 : destBlockIds s a cur = [] := by simp [destBlockIds, hlk]
    have h2 : destBlockIds t a cur = [] := by simp [destBlockIds, hlk]
    rw [h1, h2]
  · have hpaQ : (a, lookupTrans cur.actions a) ∈ Q.actions := by
      rw [← hacts]; exact hlk
    have hlkQ : lookupTrans Q.actions a = lookupTrans cur.actions a := by
      rw [← hacts]
    have main : ∀ u v : Nat, u ∈ bq.states → v ∈ bq.states →
        ∀ x, x ∈ destBlockIds u a cur → x ∈ destBlockIds v a cur := by
      intro u v hu hv x hx
      obtain ⟨tr, htr, hlab, hsrc, hxval⟩ := (mem_destBlockIds u a cur x).mp hx
      have hQuv : destinations v a Q = destinations u a Q := by
        have hnil := hQs bq hbq (a, lookupTrans cur.actions a) hpaQ u hu
        exact (neFilterR_eq_nil_iff Q bq a u).mp hnil v hv
      have hmemQu : mapGet Q.states tr.destination ∈ destBlockIds u a Q := by
        rw [mem_destBlockIds]
        exact ⟨tr, by rw [hlkQ]; exact htr, hlab, hsrc, rfl⟩
      have hmemQv : mapGet Q.states tr.destination ∈ destBlockIds v a Q :=
        (mem_iff_of_destinations_eq v u a Q hQuv _).mpr hmemQu
      obtain ⟨tr', htr', hlab', hsrc', hxval'⟩ :=
        (mem_destBlockIds v a Q _).mp hmemQv
      have hdm : tr.destination ∈ merged :=
        hwf (a, lookupTrans cur.actions a) hlk tr htr
      have hdm' : tr'.destination ∈ merged := by
        apply hwf (a, lookupTrans cur.actions a) hlk tr'
        rw [← hlkQ]
        exact htr'
      have hgc : Grouping cur tr'.destination tr.destination :=
        hco tr'.destination hdm' tr.destination hdm hxval'
      rw [mem_destBlockIds]
      refine ⟨tr', ?_, hlab', hsrc', ?_⟩
      · rw [hlkQ] at htr'
        exact htr'
      · show mapGet cur.states tr'.destination = x
        exact hgc.trans hxval
    apply destinations_eq_of_mem_iff
    intro x
    exact ⟨main s t hsq htq x, main t s htq hsq x⟩

/-! ## Scan-order independence: coarseness is preserved by every split -/

theorem coarser_splitResult (merged : List Nat) (cur Q : Partition)
    (b : Block) (a0 rep i : Nat)
    (hinv : Inv0 merged cur) (hsplit : IsSplit cur b a0 rep i)
    (hQ : Inv0 merged Q) (hQs : RStable Q) (hacts : cur.actions = Q.actions)
    (hwf : ActWf merged cur) (hco : CoarserThan merged cur Q) :
    CoarserThan merged (splitResult cur b a0 rep i) Q := by
  intro s hs t ht hg
  have hgc : Grouping cur s t := hco s hs t ht hg
  show mapGet (splitResult cur b a0 rep i).states s =
    mapGet (splitResult cur b a0 rep i).states t
  rw [mapGet_splitResult, mapGet_splitResult]
  by_cases hsb : s ∈ b.states <;> by_cases htb : t ∈ b.states
  · rw [if_pos hsb, if_pos htb]
    have hdeq : destinations s a0 cur = destinations t a0 cur :=
      destinations_eq_of_coarser merged cur Q hQ hQs hacts hwf hco hs ht hg a0
    by_cases hse : s ∈ eqFilterR cur b a0 rep
    · have hte : t ∈ eqFilterR cur b a0 rep := by
        rw [mem_eqFilterR] at hse ⊢
        exact ⟨htb, by rw [← hdeq]; exact hse.2⟩
      rw [if_pos hse, if_pos hte]
    · have hte : t ∉ eqFilterR cur b a0 rep := by
        intro hte
        apply hse
        rw [mem_eqFilterR] at hte ⊢
        exact ⟨hsb, by rw [hdeq]; exact hte.2⟩
      rw [if_neg hse, if_neg hte]
  · exfalso
    have h1 : mapGet cur.states s = b.id := hinv.idx b hsplit.hb s hsb
    obtain ⟨bt, hbt, htbt⟩ := (hinv.cover t).mpr ht
    have h2 : mapGet cur.states t = bt.id := hinv.idx bt hbt t htbt
    have hid : bt.id = b.id := by rw [← h2, ← hgc, h1]
    have hbtb : bt = b := eq_of_mem_of_id_eq hinv.idsNodup hbt hsplit.hb hid
    rw [hbtb] at htbt
    exact htb htbt
  · exfalso
    have h1 : mapGet cur.states t = b.id := hinv.idx b hsplit.hb t htb
    obtain ⟨bs2, hbs2, hsbs2⟩ := (hinv.cover s).mpr hs
    have h2 : mapGet cur.states s = bs2.id := hinv.idx bs2 hbs2 s hsbs2
    have hid : bs2.id = b.id := by rw [← h2, hgc, h1]
    have hbsb : bs2 = b := eq_of_mem_of_id_eq hinv.idsNodup hbs2 hsplit.hb hid
    rw [hbsb] at hsbs2
    exact hsb hsbs2
  · rw [if_neg hsb, if_neg htb]
    exact hgc

theorem reach_coarser (l r : Lts) (Q : Partition)
    (hQ : Inv0 (mergedStates l r) Q) (hQs : RStable Q)
    (hQacts : Q.actions = (newPartition l r).actions)
    (hwf0 : ActWf (mergedStates l r) (newPartition l r)) :
    ∀ P, Reach l r P → CoarserThan (mergedStates l r) P Q := by
  intro P hP
  induction hP with
  | refl =>
    intro s _ t _ _
    show mapGet (newPartition l r).states s = mapGet (newPartition l r).states t
    rw [mapGet_newPartition, mapGet_newPartition]
  | tail h1 h2 ih =>
    obtain ⟨b, a0, rep, i, hsplit, rfl⟩ := h2
    have hacts' := reach_actions l r _ h1
    refine coarser_splitResult (mergedStates l r) _ Q b a0 rep i
      (reach_inv0 l r _ h1) hsplit hQ hQs ?_ ?_ ih
    · rw [hacts', hQacts]
    · intro pa hpa x hx
      rw [hacts'] at hpa
      exact hwf0 pa hpa x hx

/-! ## Scan-order independence: the verdict transfers along equal groupings -/

theorem bisim_none_transfer (merged : List Nat) (P Q : Partition)
    (hP : Inv0 merged P) (hQ : Inv0 merged Q)
    (hg : ∀ s ∈ merged, ∀ t ∈ merged, (Grouping P s t ↔ Grouping Q s t))
    (hnone : Partition.bisimilar P = none) : Partition.bisimilar Q = none := by
  obtain ⟨b, hb, hf⟩ := (partition_bisimilar_none_iff P).mp hnone
  by_cases hbs : b.states = []
  · have hmerged : merged = [] := by
      rw [List.eq_nil_iff_forall_not_mem]
      intro s hsm
      obtain ⟨b', hb', hsb'⟩ := (hP.cover s).mpr hsm
      rcases hP.nonempty with hlen | hall
      · have hpos : 0 < P.blocks.length := List.length_pos.mpr (fun e => by
          rw [e] at hb; cases hb)
        obtain ⟨c, hc⟩ := List.length_eq_one.mp (le_antisymm hlen hpos)
        rw [hc] at hb hb'
        have hbc := List.mem_singleton.mp hb
        have hbc' := List.mem_singleton.mp hb'
        rw [hbc'] at hsb'
        rw [← hbc, hbs] at hsb'
        cases hsb'
      · exact hall b hb hbs
    apply (partition_bisimilar_none_iff Q).mpr
    obtain ⟨q, hq⟩ := List.exists_mem_of_ne_nil _ hQ.blocksNe
    refine ⟨q, hq, ?_⟩
    have hqs : q.states = [] := by
      rw [List.eq_nil_iff_forall_not_mem]
      intro s hsq
      have hsm : s ∈ merged := (hQ.cover s).mp ⟨q, hq, hsq⟩
      rw [hmerged] at hsm
      cases hsm
    rw [hqs]
    rfl
  · obtain ⟨s0, hs0b⟩ := List.exists_mem_of_ne_nil _ hbs
    have hs0m : s0 ∈ merged := (hP.cover s0).mp ⟨b, hb, hs0b⟩
    obtain ⟨bq, hbq, hs0q⟩ := (hQ.cover s0).mpr hs0m
    apply (partition_bisimilar_none_iff Q).mpr
    refine ⟨bq, hbq, ?_⟩
    by_contra hqt
    have hqtrue : States.bisimilar bq.states = true := by simpa using hqt
    obtain ⟨⟨e, he, hev⟩, ⟨o, ho, hod⟩⟩ :=
      (states_bisimilar_iff bq.states).mp hqtrue
    have hem : e ∈ merged := (hQ.cover e).mp ⟨bq, hbq, he⟩
    have hom : o ∈ merged := (hQ.cover o).mp ⟨bq, hbq, ho⟩
    have hgP_e : Grouping P s0 e := (hg s0 hs0m e hem).mpr
      ((grouping_iff_sameBlock merged Q hQ hs0m hem).mpr ⟨bq, hbq, hs0q, he⟩)
    obtain ⟨b', hb', hs0b', heb'⟩ :=
      (grouping_iff_sameBlock merged P hP hs0m hem).mp hgP_e
    have hbb' : b' = b := block_unique merged P hP hb' hb hs0b' hs0b
    rw [hbb'] at heb'
    have hgP_o : Grouping P s0 o := (hg s0 hs0m o hom).mpr
      ((grouping_iff_sameBlock merged Q hQ hs0m hom).mpr ⟨bq, hbq, hs0q, ho⟩)
    obtain ⟨b'', hb'', hs0b'', hob''⟩ :=
      (grouping_iff_sameBlock merged P hP hs0m hom).mp hgP_o
    have hbb'' : b'' = b := block_unique merged P hP hb'' hb hs0b'' hs0b
    rw [hbb''] at hob''
    have hbtrue : States.bisimilar b.states = true :=
      (states_bisimilar_iff b.states).mpr ⟨⟨e, heb', hev⟩, ⟨o, hob'', hod⟩⟩
    rw [hbtrue] at hf
    cases hf

/-! ## Theorems -/

/-- C1: REFUTED BY THE CODE.  The spec says `destinations` returns the
sorted duplicate-free list of containing-block ids, but the Go code
allocates the result slice with `make([]int, len(dests))` and then
`append`s, so the returned list carries `len(dests)` leading zeros: on a
partition whose only matching transition leads into block 0, it returns
`[0, 0]` instead of `[0]`. -/
theorem c1_destinations_pads_zeros :
    destinations 0 0 examplePart = [0, 0] ∧
      ¬ (destinations 0 0 examplePart).Nodup := by
  decide

/-- C7: for every state id, uniquification maps it to `2s` on the left and
`2s + 1` on the right, rewrites every transition's endpoints accordingly,
integer division by 2 recovers the original id, the left ids are even and
the right ids odd, and the two uniquified state sets are disjoint. -/
theorem c7_uniquification (l r lts : Lts) (s : Nat) :
    uniquify false s = 2 * s ∧
    uniquify true s = 2 * s + 1 ∧
    uniquify false s / 2 = s ∧
    uniquify true s / 2 = s ∧
    uniquify false s % 2 = 0 ∧
    uniquify true s % 2 = 1 ∧
    (∀ b, (uniquifyLTS lts b).states = lts.states.map (uniquify b)) ∧
    (∀ b, (uniquifyLTS lts b).transitions =
      lts.transitions.map
        (fun t => ⟨uniquify b t.source, t.label, uniquify b t.destination⟩)) ∧
    (∀ x, x ∈ (uniquifyLTS l false).states → x ∉ (uniquifyLTS r true).states) := by
  refine ⟨?_, ?_, ?_, ?_, ?_, ?_, ?_, ?_, ?_⟩
  · simp [uniquify] <;> omega
  · simp [uniquify] <;> omega
  · simp [uniquify] <;> omega
  · simp [uniquify] <;> omega
  · simp [uniquify] <;> omega
  · simp [uniquify] <;> omega
  · intro b; rfl
  · intro b; rfl
  · intro x hx hx'
    simp only [uniquifyLTS, List.mem_map] at hx hx'
    rcases hx with ⟨y, _, hy⟩
    rcases hx' with ⟨z, _, hz⟩
    simp [uniquify] at hy hz
    omega

/-- Witness for C7 at a concrete input. -/
theorem c7_uniquification_witness :
    (2 : Nat) ∈ (uniquifyLTS ltsB false).states ∧
      (2 : Nat) ∉ (uniquifyLTS ltsA true).states :=
  ⟨by decide, (c7_uniquification ltsB ltsA ltsA 0).2.2.2.2.2.2.2.2 2 (by decide)⟩

/-- C8: CORRECTED.  The claim says a no-op split leaves the block-id
allocation counter unchanged, but `splitKS` calls `newBlock` twice before
testing `B2` for emptiness, so the counter advances by two on every call:
on a one-state block with a label that matches no transition the split is
a no-op yet the counter goes from 3 to 5. -/
theorem c8_counterexample :
    splitNe ⟨0, [5]⟩ 7 ⟨[⟨0, [5]⟩], [(5, 0)], []⟩ = [] ∧
      (splitKS ⟨0, [5]⟩ 7 ⟨[⟨0, [5]⟩], [(5, 0)], []⟩ 3).2.2 ≠ 3 := by
  decide

/-- C8 (amended): every `splitKS` call advances the allocation counter by
exactly two, no-op or not; a no-op split (empty `B2`) returns the block
unchanged together with an empty fresh-id `B2`, and only an applying split
returns the two freshly-identified blocks. -/
theorem c8_amended (block : Block) (a : Nat) (part : Partition) (ctr : Nat) :
    (splitKS block a part ctr).2.2 = ctr + 2 ∧
    (splitNe block a part = [] →
      (splitKS block a part ctr).1 = block ∧
        (splitKS block a part ctr).2.1.states = []) ∧
    (splitNe block a part ≠ [] →
      (splitKS block a part ctr).1.id = ctr ∧
        (splitKS block a part ctr).2.1.id = ctr + 1) := by
  unfold splitKS
  by_cases h : splitNe block a part = [] <;> simp [h]

/-- Witness for C8 (amended) at a concrete input. -/
theorem c8_amended_witness :
    (splitKS ⟨0, [5]⟩ 7 ⟨[⟨0, [5]⟩], [(5, 0)], []⟩ 3).2.2 = 3 + 2 ∧
    (splitNe ⟨0, [5]⟩ 7 ⟨[⟨0, [5]⟩], [(5, 0)], []⟩ = [] →
      (splitKS ⟨0, [5]⟩ 7 ⟨[⟨0, [5]⟩], [(5, 0)], []⟩ 3).1 = ⟨0, [5]⟩ ∧
        (splitKS ⟨0, [5]⟩ 7 ⟨[⟨0, [5]⟩], [(5, 0)], []⟩ 3).2.1.states = []) ∧
    (splitNe ⟨0, [5]⟩ 7 ⟨[⟨0, [5]⟩], [(5, 0)], []⟩ ≠ [] →
      (splitKS ⟨0, [5]⟩ 7 ⟨[⟨0, [5]⟩], [(5, 0)], []⟩ 3).1.id = 3 ∧
        (splitKS ⟨0, [5]⟩ 7 ⟨[⟨0, [5]⟩], [(5, 0)], []⟩ 3).2.1.id = 3 + 1) :=
  c8_amended ⟨0, [5]⟩ 7 ⟨[⟨0, [5]⟩], [(5, 0)], []⟩ 3

/-- C10: on two empty LTSs the constructed partition is a single empty
block, the refinement loop applies no split (the final partition equals
the initial one), and `Partition.bisimilar` returns the nil sentinel: two
empty systems are judged not bisimilar. -/
theorem c10_empty_systems :
    (newPartition ltsE ltsE).blocks = [⟨0, []⟩] ∧
    partKS ltsE ltsE = newPartition ltsE ltsE ∧
    Partition.bisimilar (partKS ltsE ltsE) = none := by
  decide

/-- C3: when the refinement loop terminates, the resulting partition is
stable: for every block of the final partition, every label of the label
index, and every pair of states in the block, the two signatures agree. -/
theorem c3_fixpoint_stable (l r : Lts) :
    ∀ b ∈ (partKS l r).blocks, ∀ pa ∈ (partKS l r).actions,
      ∀ s ∈ b.states, ∀ t ∈ b.states,
        destinations s pa.1 (partKS l r) = destinations t pa.1 (partKS l r) := by
  intro b hb pa hpa s hs t ht
  exact stable_pairwise (partKS l r) b pa.1 ((partKS_props l r).2.1 b hb pa hpa) s hs t ht

/-- Witness for C3 on scenario A. -/
theorem c3_fixpoint_stable_witness :
    (⟨1, [0, 1]⟩ : Block) ∈ (partKS ltsA ltsB).blocks ∧
      destinations 0 0 (partKS ltsA ltsB) = destinations 1 0 (partKS ltsA ltsB) :=
  ⟨by decide, c3_fixpoint_stable ltsA ltsB ⟨1, [0, 1]⟩ (by decide)
    (0, [⟨0, 0, 2⟩, ⟨1, 0, 3⟩]) (by decide) 0 (by decide) 1 (by decide)⟩

/-- C5: at every step of the refinement (the initial partition and every
partition after an installed split), the blocks are pairwise disjoint,
their union is exactly the merged state set, and the state index points
every state at the block containing it. -/
theorem c5_partition_invariant (l r : Lts) (P : Partition) (h : Reach l r P) :
    (∀ b ∈ P.blocks, ∀ b' ∈ P.blocks, b.id ≠ b'.id → ∀ s ∈ b.states, s ∉ b'.states) ∧
    (∀ s, (∃ b ∈ P.blocks, s ∈ b.states) ↔ s ∈ mergedStates l r) ∧
    (∀ b ∈ P.blocks, ∀ s ∈ b.states, mapGet P.states s = b.id) := by
  have hinv := reach_inv0 l r P h
  exact ⟨hinv.disjointBlocks, hinv.cover, hinv.idx⟩

/-- Witness for C5 at the initial partition of scenario A. -/
theorem c5_partition_invariant_witness :
    (∀ b ∈ (newPartition ltsA ltsB).blocks, ∀ b' ∈ (newPartition ltsA ltsB).blocks,
        b.id ≠ b'.id → ∀ s ∈ b.states, s ∉ b'.states) ∧
    (∀ s, (∃ b ∈ (newPartition ltsA ltsB).blocks, s ∈ b.states) ↔
        s ∈ mergedStates ltsA ltsB) ∧
    (∀ b ∈ (newPartition ltsA ltsB).blocks, ∀ s ∈ b.states,
        mapGet (newPartition ltsA ltsB).states s = b.id) :=
  c5_partition_invariant ltsA ltsB (newPartition ltsA ltsB) Relation.ReflTransGen.refl

/-- C6: CORRECTED.  On two empty LTSs the merged state set is empty but
the partition still holds its one (empty) block, so the block count
exceeds the claimed bound "total number of merged states". -/
theorem c6_counterexample :
    ¬ ((partKS ltsE ltsE).blocks.length ≤ (mergedStates ltsE ltsE).length) := by
  decide

/-- C6 (amended): the refinement loop reaches its fixpoint (the returned
partition admits no further split); every installed split increases the
block count by exactly one (hence the count never decreases); and the
block count is bounded by the total number of merged states or by one,
whichever is larger. -/
theorem c6_amended (l r : Lts) :
    Stable (partKS l r) ∧
    (∀ P P', Reach l r P → RStep P P' → P'.blocks.length = P.blocks.length + 1) ∧
    (∀ P, Reach l r P → P.blocks.length ≤ max 1 (mergedStates l r).length) := by
  refine ⟨(partKS_props l r).2.1, ?_, ?_⟩
  · intro P P' hP hstep
    obtain ⟨b, a, rep, i, hsplit, rfl⟩ := hstep
    exact length_blocks_splitResult _ _ _ _ _ _ (reach_inv0 l r P hP) hsplit
  · intro P hP
    exact blocks_length_le _ P (reach_inv0 l r P hP)

/-- Witness for C6 (amended) on scenario A. -/
theorem c6_amended_witness :
    Stable (partKS ltsA ltsB) ∧
      (newPartition ltsA ltsB).blocks.length ≤ max 1 (mergedStates ltsA ltsB).length :=
  ⟨(c6_amended ltsA ltsB).1,
    (c6_amended ltsA ltsB).2.2 (newPartition ltsA ltsB) Relation.ReflTransGen.refl⟩

/-- C2: on any partition the refinement run can end in, the oracle returns
a non-sentinel relation iff every block holds at least one even
(left-origin) and at least one odd (right-origin) state; on success the
relation is a total mapping over the merged states whose class labels
agree exactly within blocks; on failure it returns the nil sentinel. -/
theorem c2_bisimilar_verdict (l r : Lts) (P : Partition)
    (hreach : Reach l r P) (hstab : Stable P) :
    ((Partition.bisimilar P).isSome = true ↔
      ∀ b ∈ P.blocks, (∃ s ∈ b.states, s % 2 = 0) ∧ (∃ s ∈ b.states, s % 2 = 1)) ∧
    (∀ m, Partition.bisimilar P = some m →
      (∀ s ∈ mergedStates l r, ∃ c, (s, c) ∈ m) ∧
      (∀ s ∈ mergedStates l r, ∀ t ∈ mergedStates l r,
        (mapGet m s = mapGet m t ↔ ∃ b ∈ P.blocks, s ∈ b.states ∧ t ∈ b.states))) ∧
    (Partition.bisimilar P = none ↔
      ∃ b ∈ P.blocks,
        ¬ ((∃ s ∈ b.states, s % 2 = 0) ∧ (∃ s ∈ b.states, s % 2 = 1))) := by
  have hinv := reach_inv0 l r P hreach
  have hpw : List.Pairwise (fun b b' => ∀ s, s ∈ b.states → s ∉ b'.states) P.blocks := by
    refine List.Pairwise.imp_of_mem ?_ ((List.pairwise_map).mp hinv.idsNodup)
    intro x y hx hy hne
    exact fun s hs => hinv.disjointBlocks x hx y hy hne s hs
  refine ⟨?_, ?_, ?_⟩
  · constructor
    · intro hsome b hb
      rw [← states_bisimilar_iff]
      by_contra hfalse
      have hf : States.bisimilar b.states = false := by simpa using hfalse
      have hnone : Partition.bisimilar P = none :=
        (partition_bisimilar_none_iff P).mpr ⟨b, hb, hf⟩
      rw [hnone] at hsome
      simp at hsome
    · intro hall
      cases hopt : Partition.bisimilar P with
      | none =>
        obtain ⟨b, hb, hf⟩ := (partition_bisimilar_none_iff P).mp hopt
        have := (states_bisimilar_iff b.states).mpr (hall b hb)
        rw [this] at hf
        cases hf
      | some m => rfl
  · intro m hm
    have hget := bisimAux_get P.blocks hpw 0 [] m hm
    constructor
    · intro s hs
      obtain ⟨b, hb, hsb⟩ := (hinv.cover s).mpr hs
      exact hget.2.2 s (Or.inl ⟨b, hb, hsb⟩)
    · intro s hs t ht
      obtain ⟨bS, hbS, hsS⟩ := (hinv.cover s).mpr hs
      obtain ⟨bT, hbT, hsT⟩ := (hinv.cover t).mpr ht
      obtain ⟨ns, hgs⟩ := List.mem_iff_get.mp hbS
      obtain ⟨nt, hgt⟩ := List.mem_iff_get.mp hbT
      have hcs : mapGet m s = 0 + ns.1 := by
        apply hget.2.1 ns.1 ns.2
        rw [show P.blocks.get ⟨ns.1, ns.2⟩ = bS from by rw [← hgs]]
        exact hsS
      have hct : mapGet m t = 0 + nt.1 := by
        apply hget.2.1 nt.1 nt.2
        rw [show P.blocks.get ⟨nt.1, nt.2⟩ = bT from by rw [← hgt]]
        exact hsT
      constructor
      · intro heq
        have hnn : ns.1 = nt.1 := by omega
        refine ⟨bS, hbS, hsS, ?_⟩
        have hbb : bS = bT := by
          rw [← hgs, ← hgt]
          congr 1
          exact Fin.ext hnn
        rw [hbb]
        exact hsT
      · rintro ⟨b, hb, hsb, htb⟩
        obtain ⟨n, hgn⟩ := List.mem_iff_get.mp hb
        have h1 : mapGet m s = 0 + n.1 := by
          apply hget.2.1 n.1 n.2
          rw [show P.blocks.get ⟨n.1, n.2⟩ = b from by rw [← hgn]]
          exact hsb
        have h2 : mapGet m t = 0 + n.1 := by
          apply hget.2.1 n.1 n.2
          rw [show P.blocks.get ⟨n.1, n.2⟩ = b from by rw [← hgn]]
          exact htb
        rw [h1, h2]
  · rw [partition_bisimilar_none_iff]
    constructor
    · rintro ⟨b, hb, hf⟩
      refine ⟨b, hb, ?_⟩
      rw [← states_bisimilar_iff]
      simp [hf]
    · rintro ⟨b, hb, hnf⟩
      refine ⟨b, hb, ?_⟩
      rw [← states_bisimilar_iff] at hnf
      simpa using hnf

/-- Witness for C2 on the final stable partition of scenario A. -/
theorem c2_bisimilar_verdict_witness :
    (Partition.bisimilar (partKS ltsA ltsB)).isSome = true ↔
      ∀ b ∈ (partKS ltsA ltsB).blocks,
        (∃ s ∈ b.states, s % 2 = 0) ∧ (∃ s ∈ b.states, s % 2 = 1) :=
  (c2_bisimilar_verdict ltsA ltsB (partKS ltsA ltsB)
    (partKS_props ltsA ltsB).2.2 (partKS_props ltsA ltsB).2.1).1

/-- C4: on a non-empty block, `splitKS` picks a representative in the
block; `B1` is exactly the members whose signature equals the
representative's and `B2` exactly the rest; an empty `B2` returns the
block unchanged with the empty `B2` as the no-op signal; otherwise the two
freshly-identified blocks are returned, `B1` and `B2` are non-empty and
disjoint, and their union is the block. -/
theorem c4_splitKS (block : Block) (a : Nat) (part : Partition) (ctr : Nat)
    (hne : block.states ≠ []) :
    splitRep block ∈ block.states ∧
    (∀ t, t ∈ splitEq block a part ↔
      t ∈ block.states ∧
        destinations t a part = destinations (splitRep block) a part) ∧
    (∀ t, t ∈ splitNe block a part ↔
      t ∈ block.states ∧
        destinations t a part ≠ destinations (splitRep block) a part) ∧
    (splitNe block a part = [] →
      splitKS block a part ctr = (block, ⟨ctr + 1, []⟩, ctr + 2)) ∧
    (splitNe block a part ≠ [] →
      splitKS block a part ctr =
          (⟨ctr, splitEq block a part⟩, ⟨ctr + 1, splitNe block a part⟩, ctr + 2) ∧
        splitEq block a part ≠ [] ∧
        (∀ x ∈ splitEq block a part, x ∉ splitNe block a part) ∧
        (∀ x, x ∈ block.states ↔
          x ∈ splitEq block a part ∨ x ∈ splitNe block a part)) := by
  have hrep : splitRep block ∈ block.states := headD_mem hne 0
  refine ⟨hrep, ?_, ?_, ?_, ?_⟩
  · intro t
    exact mem_eqFilterR part block a (splitRep block) t
  · intro t
    exact mem_neFilterR part block a (splitRep block) t
  · intro h
    simp [splitKS, h]
  · intro h
    refine ⟨by simp [splitKS, h], ?_, ?_, ?_⟩
    · have hr : splitRep block ∈ splitEq block a part :=
        (mem_eqFilterR part block a (splitRep block) _).mpr ⟨hrep, rfl⟩
      exact List.ne_nil_of_mem hr
    · intro x hx
      exact eqFilterR_not_mem_neFilterR part block a (splitRep block) x hx
    · intro x
      exact mem_states_iff_filters part block a (splitRep block) x

/-- Witness for C4 on the initial block of scenario A. -/
theorem c4_splitKS_witness :
    (⟨0, [0, 2, 1, 3]⟩ : Block).states ≠ [] ∧
      splitRep ⟨0, [0, 2, 1, 3]⟩ ∈ (⟨0, [0, 2, 1, 3]⟩ : Block).states :=
  ⟨by decide,
    (c4_splitKS ⟨0, [0, 2, 1, 3]⟩ 0 (newPartition ltsA ltsB) 1 (by decide)).1⟩

/-- C9: any two runs of the refinement loop on the same pair of uniquified
well-formed LTSs, whatever block/label scan order, representative choice
and fresh-id draw each makes, end (when stable) with the same grouping of
the merged states, and the bisimilar/not-bisimilar verdict is the same;
only the block ids and class labels may differ. -/
theorem c9_scan_order (l r : Lts) (hwf : Wf l r) (P Q : Partition)
    (hP : Reach l r P) (hQ : Reach l r Q) (hPs : RStable P) (hQs : RStable Q) :
    (∀ s ∈ mergedStates l r, ∀ t ∈ mergedStates l r,
      (Grouping P s t ↔ Grouping Q s t)) ∧
    (Partition.bisimilar P = none ↔ Partition.bisimilar Q = none) := by
  have hPinv := reach_inv0 l r P hP
  have hQinv := reach_inv0 l r Q hQ
  have hwf0 := actWf_newPartition l r hwf
  have hPQ : CoarserThan (mergedStates l r) P Q :=
    reach_coarser l r Q hQinv hQs (reach_actions l r Q hQ) hwf0 P hP
  have hQP : CoarserThan (mergedStates l r) Q P :=
    reach_coarser l r P hPinv hPs (reach_actions l r P hP) hwf0 Q hQ
  have hg : ∀ s ∈ mergedStates l r, ∀ t ∈ mergedStates l r,
      (Grouping P s t ↔ Grouping Q s t) :=
    fun s hs t ht => ⟨fun h => hQP s hs t ht h, fun h => hPQ s hs t ht h⟩
  refine ⟨hg, ?_, ?_⟩
  · exact fun h => bisim_none_transfer (mergedStates l r) P Q hPinv hQinv hg h
  · intro h
    apply bisim_none_transfer (mergedStates l r) Q P hQinv hPinv ?_ h
    exact fun s hs t ht => (hg s hs t ht).symm

/-- Witness for C9 on scenario A (both runs being the deterministic one). -/
theorem c9_scan_order_witness :
    (∀ s ∈ mergedStates ltsA ltsB, ∀ t ∈ mergedStates ltsA ltsB,
      (Grouping (partKS ltsA ltsB) s t ↔ Grouping (partKS ltsA ltsB) s t)) ∧
    (Partition.bisimilar (partKS ltsA ltsB) = none ↔
      Partition.bisimilar (partKS ltsA ltsB) = none) :=
  c9_scan_order ltsA ltsB ⟨by decide, by decide⟩ (partKS ltsA ltsB) (partKS ltsA ltsB)
    (partKS_props ltsA ltsB).2.2 (partKS_props ltsA ltsB).2.2
    (stable_rstable _ (partKS_props ltsA ltsB).2.1)
    (stable_rstable _ (partKS_props ltsA ltsB).2.1)
